import Mathlib

/-!
Shallow embedding of the jtpeller/cliques word-clique search.

Source layout:
* `word_node.py`  — the `WordNode` dataclass (word, char_set, neighbors).
* `graph.py`      — `Graph._init_nodes`, `Graph.compute_graph`, `Graph._get_word_index`.
* `clique.py`     — `Clique.compute_cliques`, `Clique._get_clique_list`, the per-arity
  clique searches `_two_clique` … `_six_clique`, `_clique_layer_t`, `_clique_loop_end`,
  `_get_word_repr`, `Clique.write_cliques`.
* `util.py`       — `pop_without_remove`.

Python strings are modelled as `List Char`, Python `set`s as `Finset`, Python ints as
`ℕ`/`ℤ` (the layer parameter `n` of `_clique_layer_t` goes negative, so it is an `ℤ`
at the interface), and Python exceptions as `Except String`.  Python `set` iteration
order is unspecified; loops over a set are modelled as loops over the ascending sort
of the `Finset`.  All list/`Finset` operations mirror the source statements one for
one; comments mark the two places where the source has a statement with no effect.
-/

namespace Cliques

/-- A node in the word graph (`word_node.py`, class `WordNode`). -/
structure WordNode where
  word : List Char
  charSet : Finset Char
  neighbors : Finset ℕ
deriving DecidableEq

/-- Node used by `List.getD` where Python would index `self.nodes[idx]`; every
index reaching such a lookup is in range (proved below), so the default is inert. -/
def defaultNode : WordNode := ⟨[], ∅, ∅⟩

/-- Python `str.strip()`: drop leading and trailing whitespace. -/
def pyStrip (w : List Char) : List Char :=
  ((w.dropWhile Char.isWhitespace).reverse.dropWhile Char.isWhitespace).reverse

/-- `Graph._init_nodes` (graph.py 147-168): keep a stripped word exactly when its
length equals the requested length and its (case-sensitive) character set has that
many elements; surviving words become nodes, in input order, with empty neighbor sets. -/
def initNodes (words : List (List Char)) (length : ℕ) : List WordNode :=
  words.filterMap fun raw =>
    let w := pyStrip raw
    if w.length ≠ length then none
    else if w.toFinset.card ≠ length then none
    else some ⟨w, w.toFinset, ∅⟩

/-- `Graph._get_word_index` (graph.py 170-187): index of the first node whose word
matches, `none` otherwise. -/
def getWordIndex : List WordNode → List Char → Option ℕ
  | [], _ => none
  | n :: ns, w => if n.word = w then some 0 else (getWordIndex ns w).map (· + 1)

/-- Ascending enumeration of a `Finset`, used wherever Python iterates over a `set`
(Python set iteration order is unspecified, so the ascending order is the canonical
deterministic choice).  Insertion sort is used rather than `Finset.sort` so that the
function evaluates by kernel reduction on concrete inputs. -/
def finSort {α : Type} [LinearOrder α] (s : Finset α) : List α :=
  Quot.liftOn s.val (List.insertionSort (· ≤ ·)) fun l₁ l₂ h =>
    List.eq_of_perm_of_sorted
      (((List.perm_insertionSort _ l₁).trans h).trans (List.perm_insertionSort _ l₂).symm)
      (List.sorted_insertionSort _ l₁) (List.sorted_insertionSort _ l₂)

theorem mem_finSort {α : Type} [LinearOrder α] (s : Finset α) (a : α) :
    a ∈ finSort s ↔ a ∈ s := by
  rcases s with ⟨m, hm⟩
  refine Quotient.inductionOn m (fun l _ => ?_) hm
  exact (List.perm_insertionSort _ l).mem_iff

theorem finSort_nodup {α : Type} [LinearOrder α] (s : Finset α) : (finSort s).Nodup := by
  rcases s with ⟨m, hm⟩
  refine Quotient.inductionOn m (fun l hl => ?_) hm
  exact (List.perm_insertionSort _ l).nodup_iff.mpr hl

/-- `util.pop_without_remove`: an arbitrary element of the set (the code only ever
applies it to singleton sets, where the choice is forced); `none` on the empty set. -/
def popWr (s : Finset Char) : Option Char := (finSort s).head?

/-- Python `pop_wr(intersection) in vowels_left` (membership of a character in a
string); `pop_wr` returning `None` would make the Python test raise, but it is only
evaluated after `len(intersection) == 1`. -/
def popCheck : Option Char → List Char → Bool
  | some c, vs => vs.contains c
  | none, _ => false

/-- Initial value of the `vowels_left` working pool in `Graph.compute_graph`. -/
def vowelsInit : List Char := "aeiou".toList

/-- Inner loop of `Graph.compute_graph` (graph.py 102-114) for one outer node:
walk all nodes `j`, adding `self._get_word_index(j.word)` when the letter sets are
disjoint, or (fuzzy mode) when they share exactly one letter that is a vowel still
in the pool and fewer than 3 fuzzy matches have been used.  The source line
`vowels_left.replace(pop_wr(intersection), "")` discards its result (Python strings
are immutable), so the pool is passed on unchanged here, mirroring that bug. -/
def neighborsLoop (allNodes : List WordNode) (fuzzy : Bool) (node : WordNode) :
    List WordNode → Finset ℕ → ℕ → List Char → Finset ℕ
  | [], acc, _, _ => acc
  | jn :: rest, acc, nFuzzy, vowelsLeft =>
    let inter := node.charSet ∩ jn.charSet
    if inter.card = 0 then
      neighborsLoop allNodes fuzzy node rest
        (insert ((getWordIndex allNodes jn.word).getD 0) acc) nFuzzy vowelsLeft
    else if fuzzy = true ∧ inter.card = 1 ∧ popCheck (popWr inter) vowelsLeft = true ∧ nFuzzy < 3 then
      neighborsLoop allNodes fuzzy node rest
        (insert ((getWordIndex allNodes jn.word).getD 0) acc) (nFuzzy + 1) vowelsLeft
    else
      neighborsLoop allNodes fuzzy node rest acc nFuzzy vowelsLeft

/-- `Graph.compute_graph` (graph.py 77-118): give every node its computed neighbor
set; the fuzzy counter and vowel pool are reset for each outer node. -/
def computeGraph (nodes : List WordNode) (fuzzy : Bool) : List WordNode :=
  nodes.map fun node =>
    { node with neighbors := neighborsLoop nodes fuzzy node nodes node.neighbors 0 vowelsInit }

/-- Neighbor set of the node at index `i` (`self.nodes[i].neighbors`). -/
def nbrs (nodes : List WordNode) (i : ℕ) : Finset ℕ := (nodes.getD i defaultNode).neighbors

/-- Character set of the node at index `i` (`self.nodes[i].char_set`). -/
def charSetAt (nodes : List WordNode) (i : ℕ) : Finset Char := (nodes.getD i defaultNode).charSet

/-- Message of the `ValueError` raised by `Graph.__init__` on an empty word list
(the source interpolates the offending list into the message). -/
def graphInitMsg : String := "Words must be a list of words"

/-- `Graph.__init__` (graph.py 24-75): reject an empty word list, then build the
node list with `_init_nodes`. -/
def graphInit (words : List (List Char)) (length : ℕ) : Except String (List WordNode) :=
  if words.length ≤ 0 then .error graphInitMsg else .ok (initNodes words length)

/-- `Clique._clique_loop_end` (clique.py 329-337): append `prev_idx ++ [r]` for every
candidate `r` not below the last chain element. -/
def cliqueLoopEnd (prevIdx : List ℕ) (prevN : Finset ℕ) : List (List ℕ) :=
  ((finSort prevN).filter fun r => ! decide (r < prevIdx.getLastD 0)).map
    fun r => prevIdx ++ [r]

/-- `Clique._two_clique` (clique.py 160-166). -/
def twoClique (nodes : List WordNode) : List (List ℕ) :=
  (List.range nodes.length).flatMap fun i => cliqueLoopEnd [i] (nbrs nodes i)

/-- Innermost loop of `Clique._four_clique` (over `k`). -/
def fourLoopK (nodes : List WordNode) (i j : ℕ) (nij : Finset ℕ) : List (List ℕ) :=
  (finSort nij).flatMap fun k =>
    if k < j then []
    else cliqueLoopEnd [i, j, k] (nij ∩ nbrs nodes k)

/-- Middle loop of `Clique._four_clique` (over `j`), with the `len(nij) < 2` prune. -/
def fourLoopJ (nodes : List WordNode) (i : ℕ) (ni : Finset ℕ) : List (List ℕ) :=
  (finSort ni).flatMap fun j =>
    if j < i then []
    else
      let nij := ni ∩ nbrs nodes j
      if nij.card < 2 then [] else fourLoopK nodes i j nij

/-- `Clique._four_clique` (clique.py 233-259). -/
def fourClique (nodes : List WordNode) : List (List ℕ) :=
  (List.range nodes.length).flatMap fun i => fourLoopJ nodes i (nbrs nodes i)

/-- Innermost loop of `Clique._five_clique` (over `l`), with the `len(nijkl) < 1` check. -/
def fiveLoopL (nodes : List WordNode) (i j k : ℕ) (nijk : Finset ℕ) : List (List ℕ) :=
  (finSort nijk).flatMap fun l =>
    if l < k then []
    else
      let nijkl := nijk ∩ nbrs nodes l
      if nijkl.card < 1 then [] else cliqueLoopEnd [i, j, k, l] nijkl

/-- Loop of `Clique._five_clique` over `k`, with the `len(nijk) < 2` prune. -/
def fiveLoopK (nodes : List WordNode) (i j : ℕ) (nij : Finset ℕ) : List (List ℕ) :=
  (finSort nij).flatMap fun k =>
    if k < j then []
    else
      let nijk := nij ∩ nbrs nodes k
      if nijk.card < 2 then [] else fiveLoopL nodes i j k nijk

/-- Loop of `Clique._five_clique` over `j`, with the `len(nij) < 3` prune. -/
def fiveLoopJ (nodes : List WordNode) (i : ℕ) (ni : Finset ℕ) : List (List ℕ) :=
  (finSort ni).flatMap fun j =>
    if j < i then []
    else
      let nij := ni ∩ nbrs nodes j
      if nij.card < 3 then [] else fiveLoopK nodes i j nij

/-- `Clique._five_clique` (clique.py 261-291). -/
def fiveClique (nodes : List WordNode) : List (List ℕ) :=
  (List.range nodes.length).flatMap fun i => fiveLoopJ nodes i (nbrs nodes i)

/-- Innermost loop of `Clique._six_clique` (over `m`). -/
def sixLoopM (nodes : List WordNode) (i j k l : ℕ) (nijkl : Finset ℕ) : List (List ℕ) :=
  (finSort nijkl).flatMap fun m =>
    if m < l then [] else cliqueLoopEnd [i, j, k, l, m] (nijkl ∩ nbrs nodes m)

/-- Loop of `Clique._six_clique` over `l`, with the `len(nijkl) < 2` prune. -/
def sixLoopL (nodes : List WordNode) (i j k : ℕ) (nijk : Finset ℕ) : List (List ℕ) :=
  (finSort nijk).flatMap fun l =>
    if l < k then []
    else
      let nijkl := nijk ∩ nbrs nodes l
      if nijkl.card < 2 then [] else sixLoopM nodes i j k l nijkl

/-- Loop of `Clique._six_clique` over `k`, with the `len(nijk) < 3` prune. -/
def sixLoopK (nodes : List WordNode) (i j : ℕ) (nij : Finset ℕ) : List (List ℕ) :=
  (finSort nij).flatMap fun k =>
    if k < j then []
    else
      let nijk := nij ∩ nbrs nodes k
      if nijk.card < 3 then [] else sixLoopL nodes i j k nijk

/-- Loop of `Clique._six_clique` over `j`, with the `len(nij) < 4` prune. -/
def sixLoopJ (nodes : List WordNode) (i : ℕ) (ni : Finset ℕ) : List (List ℕ) :=
  (finSort ni).flatMap fun j =>
    if j < i then []
    else
      let nij := ni ∩ nbrs nodes j
      if nij.card < 4 then [] else sixLoopK nodes i j nij

/-- `Clique._six_clique` (clique.py 293-327). -/
def sixClique (nodes : List WordNode) : List (List ℕ) :=
  (List.range nodes.length).flatMap fun i => sixLoopJ nodes i (nbrs nodes i)

/-- Python list indexing with negative-index support, as in `prev_idx[(n-2)-1]`
inside `_clique_layer_t`; `none` corresponds to an `IndexError`. -/
def pyGet (l : List ℕ) (i : ℤ) : Option ℕ :=
  if 0 ≤ i then l[i.toNat]?
  else if (-i).toNat ≤ l.length then l[l.length - (-i).toNat]?
  else none

/-- Message of the `ValueError` raised by `_clique_layer_t` on a negative `n`. -/
def layerMsg (n : ℤ) : String := "[***] n must be a non-negative integer! Got: " ++ toString n

/-- One `for next_idx in prev_n` pass of `Clique._clique_layer_t` (clique.py 168-206)
at layer `n`, over the pending (sorted) part of the candidate set.  Per the source:
skip candidates below `prev_idx[(n-2)-1]`; when `n-2 == 1` emit via `_clique_loop_end`
(and then still fall through, the source has no `continue` there); skip the recursive
call when `len(next_n) < n-2`; otherwise recurse one layer down via `recur` and keep
looping with the accumulator it returns. -/
def layerGo (nodes : List WordNode)
    (recur : List ℕ → Finset ℕ → List (List ℕ) → Except String (List (List ℕ)))
    (n : ℕ) (prevIdx : List ℕ) :
    List ℕ → Finset ℕ → List (List ℕ) → Except String (List (List ℕ))
  | [], _, cl => .ok cl
  | next :: rest, prevN, cl =>
    match pyGet prevIdx ((n : ℤ) - 2 - 1) with
    | none => .error "IndexError: list index out of range"
    | some p =>
      if next < p then layerGo nodes recur n prevIdx rest prevN cl
      else
        let nextN := prevN ∩ nbrs nodes next
        let cl1 := if (n : ℤ) - 2 = 1 then cl ++ cliqueLoopEnd (prevIdx ++ [next]) nextN else cl
        if (nextN.card : ℤ) < (n : ℤ) - 2 then layerGo nodes recur n prevIdx rest prevN cl1
        else
          match recur (prevIdx ++ [next]) nextN cl1 with
          | .error e => .error e
          | .ok cl2 => layerGo nodes recur n prevIdx rest prevN cl2

/-- `Clique._clique_layer_t` at non-negative layer `n`: run the loop, where the
recursive call at layer `n-1` either runs the next layer down or — when `n = 0`, so
the call would pass `n-1 = -1` — raises the non-negative-integer `ValueError`,
exactly as `_clique_layer_t(-1, …)` does on entry. -/
def cliqueLayer (nodes : List WordNode) :
    ℕ → List ℕ → Finset ℕ → List (List ℕ) → Except String (List (List ℕ))
  | 0, prevIdx, prevN, cl =>
    layerGo nodes (fun _ _ _ => .error (layerMsg (-1))) 0 prevIdx (finSort prevN) prevN cl
  | n + 1, prevIdx, prevN, cl =>
    layerGo nodes (cliqueLayer nodes n) (n + 1) prevIdx (finSort prevN) prevN cl

/-- `Clique._clique_layer_t` (clique.py 168-206): raise on a negative `n`, else loop. -/
def cliqueLayerT (nodes : List WordNode) (n : ℤ) (prevIdx : List ℕ) (prevN : Finset ℕ)
    (cl : List (List ℕ)) : Except String (List (List ℕ)) :=
  if n < 0 then .error (layerMsg n) else cliqueLayer nodes n.toNat prevIdx prevN cl

/-- Outer loop of `Clique._three_clique` (clique.py 208-231) over the starting index. -/
def threeGo (nodes : List WordNode) : List ℕ → List (List ℕ) → Except String (List (List ℕ))
  | [], cl => .ok cl
  | i :: rest, cl =>
    match cliqueLayerT nodes 3 [i] (nbrs nodes i) cl with
    | .error e => .error e
    | .ok cl' => threeGo nodes rest cl'

/-- `Clique._three_clique`: run `_clique_layer_t` with `n = 3` from every start node. -/
def threeClique (nodes : List WordNode) : Except String (List (List ℕ)) :=
  threeGo nodes (List.range nodes.length) []

/-- `Clique._get_clique_list` (clique.py 339-376): dispatch on
`num_words = int(26 / length)`; any count outside 2..6 falls to the default arm and
yields the empty list.  (The pipeline validates `1 ≤ length ≤ 26` before calling
this, so the Python `26 / length` division never sees `length = 0` here.) -/
def getCliqueList (nodes : List WordNode) (length : ℕ) : Except String (List (List ℕ)) :=
  let numWords := 26 / length
  if numWords = 2 then .ok (twoClique nodes)
  else if numWords = 3 then threeClique nodes
  else if numWords = 4 then .ok (fourClique nodes)
  else if numWords = 5 then .ok (fiveClique nodes)
  else if numWords = 6 then .ok (sixClique nodes)
  else .ok []

/-- `Clique._get_word_repr` (clique.py 378-390): expand index cliques to word cliques. -/
def getWordRepr (nodes : List WordNode) (cliques : List (List ℕ)) : List (List (List Char)) :=
  cliques.map fun cliq => cliq.map fun idx => (nodes.getD idx defaultNode).word

/-- Message of the `ValueError` raised by `Clique.compute_cliques` on a length
outside 1..26 (the source interpolates the offending length). -/
def lengthMsg : String := "[***] ERROR: Length must be a number between 1 and 26."

/-- `Clique.compute_cliques` (clique.py 48-102): validate the length, build the graph
with `fuzzy=False` hard-coded (clique.py 75-76) regardless of the `fuzzy` flag the
`Clique` object was constructed with, enumerate cliques, and expand them to words. -/
def computeCliques (words : List (List Char)) (length : ℕ) (fuzzy : Bool) :
    Except String (List (List ℕ) × List (List (List Char))) :=
  if length ≤ 0 ∨ 26 < length then .error lengthMsg
  else
    match graphInit words length with
    | .error e => .error e
    | .ok nodes0 =>
      let nodes := computeGraph nodes0 false
      match getCliqueList nodes length with
      | .error e => .error e
      | .ok cliques => .ok (cliques, getWordRepr nodes cliques)

/-- Rows assembled by `Clique.write_cliques` (clique.py 115-121): one dict per word
clique, holding exactly the clique and the object's `fuzzy` flag. -/
def writeRows (wordCliques : List (List (List Char))) (fuzzy : Bool) :
    List (List (List Char) × Bool) :=
  wordCliques.map fun cliq => (cliq, fuzzy)

/-- CSV field names written by `Clique.write_cliques`: `list(output[0].keys())`. -/
def rowFields : List String := ["clique", "fuzzy"]

/-- Modelled from the spec (for refutation of claim C8 only): the spec's
"case-insensitive letter set" of a word, which the source never computes. -/
def specCaseInsensitiveLetterSet (w : List Char) : Finset Char :=
  (w.map Char.toLower).toFinset

/-- The six pairwise-disjoint length-4 words named by the spec's completeness test. -/
def sixWords : List (List Char) :=
  ["abcd".toList, "efgh".toList, "ijkl".toList, "mnop".toList, "qrst".toList, "uvwx".toList]

/-- Eight pairwise-disjoint length-3 words: a strict 8-clique exists, but
`_get_clique_list` has no handler for `num_words = 8`. -/
def eightWords : List (List Char) :=
  ["abc".toList, "def".toList, "ghi".toList, "jkl".toList,
   "mno".toList, "pqr".toList, "stu".toList, "vwx".toList]

/-- Five pairwise-disjoint length-7 strings (the filter accepts any characters, not
just letters), which drive `_clique_layer_t` down to layer `n = -1`. -/
def fiveDisjoint7 : List (List Char) :=
  ["abcdefg".toList, "hijklmn".toList, "opqrstu".toList, "vwxyz01".toList, "2345678".toList]

/-- Fuzzy-mode demonstration words: `ac` and `ad` each share exactly the vowel `a`
with `ab`. -/
def fuzzyDemoWords : List (List Char) := ["ab".toList, "ac".toList, "ad".toList]

/-- The well-formedness predicate the spec imposes on an emitted clique: `k` strictly
increasing valid node indices, each later one a neighbor of every earlier one. -/
def soundClique (nodes : List WordNode) (k : ℕ) (t : List ℕ) : Prop :=
  t.length = k ∧ t.Pairwise (· < ·) ∧ t.Pairwise (fun a b => b ∈ nbrs nodes a) ∧
    ∀ x ∈ t, x < nodes.length

/-! ### Generic helper lemmas -/

theorem mem_ite_nil {α : Type} {c : Prop} [Decidable c] {l : List α} {a : α} :
    a ∈ (if c then ([] : List α) else l) ↔ ¬c ∧ a ∈ l := by
  split <;> simp_all

theorem nodup_flatMap {α β : Type} {l : List α} {f : α → List β}
    (hl : l.Nodup) (hf : ∀ a ∈ l, (f a).Nodup)
    (hdisj : ∀ a ∈ l, ∀ b ∈ l, ∀ x, x ∈ f a → x ∈ f b → a = b) :
    (l.flatMap f).Nodup := by
  induction l with
  | nil => simp
  | cons a l ih =>
    rw [List.flatMap_cons, List.nodup_append]
    refine ⟨hf a (by simp), ih (List.nodup_cons.mp hl).2
      (fun x hx => hf x (by simp [hx]))
      (fun x hx y hy => hdisj x (by simp [hx]) y (by simp [hy])), ?_⟩
    intro x hx hx'
    obtain ⟨b, hb, hxb⟩ := List.mem_flatMap.mp hx'
    have hab : a = b := hdisj a (by simp) b (by simp [hb]) x hx hxb
    subst hab
    exact (List.nodup_cons.mp hl).1 hb

theorem two_le_card {s : Finset ℕ} {a b : ℕ} (hab : a < b) (ha : a ∈ s) (hb : b ∈ s) :
    2 ≤ s.card := by
  have hsub : ({a, b} : Finset ℕ) ⊆ s := by
    intro x hx
    rcases Finset.mem_insert.mp hx with h | h
    · exact h ▸ ha
    · exact (Finset.mem_singleton.mp h) ▸ hb
  have hcard : ({a, b} : Finset ℕ).card = 2 := by
    rw [Finset.card_insert_of_not_mem (by simp; omega), Finset.card_singleton]
  have := Finset.card_le_card hsub
  omega

theorem three_le_card {s : Finset ℕ} {a b c : ℕ} (hab : a < b) (hbc : b < c)
    (ha : a ∈ s) (hb : b ∈ s) (hc : c ∈ s) : 3 ≤ s.card := by
  have hsub : ({a, b, c} : Finset ℕ) ⊆ s := by
    intro x hx
    simp only [Finset.mem_insert, Finset.mem_singleton] at hx
    rcases hx with h | h | h
    · exact h ▸ ha
    · exact h ▸ hb
    · exact h ▸ hc
  have hcard : ({a, b, c} : Finset ℕ).card = 3 := by
    rw [Finset.card_insert_of_not_mem (by simp; omega),
      Finset.card_insert_of_not_mem (by simp; omega), Finset.card_singleton]
  have := Finset.card_le_card hsub
  omega

theorem four_le_card {s : Finset ℕ} {a b c d : ℕ} (hab : a < b) (hbc : b < c) (hcd : c < d)
    (ha : a ∈ s) (hb : b ∈ s) (hc : c ∈ s) (hd : d ∈ s) : 4 ≤ s.card := by
  have hsub : ({a, b, c, d} : Finset ℕ) ⊆ s := by
    intro x hx
    simp only [Finset.mem_insert, Finset.mem_singleton] at hx
    rcases hx with h | h | h | h
    · exact h ▸ ha
    · exact h ▸ hb
    · exact h ▸ hc
    · exact h ▸ hd
  have hcard : ({a, b, c, d} : Finset ℕ).card = 4 := by
    rw [Finset.card_insert_of_not_mem (by simp; omega),
      Finset.card_insert_of_not_mem (by simp; omega),
      Finset.card_insert_of_not_mem (by simp; omega), Finset.card_singleton]
  have := Finset.card_le_card hsub
  omega

theorem getD_of_lt {l : List WordNode} {i : ℕ} (h : i < l.length) :
    l.getD i defaultNode = l[i] := by
  simp [List.getD_eq_getElem?_getD, List.getElem?_eq_getElem h]

theorem getD_mem {l : List WordNode} {i : ℕ} (h : i < l.length) :
    l.getD i defaultNode ∈ l := by
  rw [getD_of_lt h]
  exact List.getElem_mem h

/-! ### Graph-builder lemmas -/

theorem getWordIndex_some_spec {nodes : List WordNode} {w : List Char} {k : ℕ}
    (h : getWordIndex nodes w = some k) :
    k < nodes.length ∧ (nodes.getD k defaultNode).word = w := by
  induction nodes generalizing k with
  | nil => simp [getWordIndex] at h
  | cons n ns ih =>
    rw [getWordIndex] at h
    split at h
    · rename_i hw
      obtain rfl : k = 0 := by simpa using h.symm
      simpa using hw
    · obtain ⟨k', hk', rfl⟩ := Option.map_eq_some'.mp h
      obtain ⟨hlt, hword⟩ := ih hk'
      refine ⟨by simpa using Nat.succ_lt_succ hlt, ?_⟩
      simpa using hword

theorem getWordIndex_isSome_of_mem {nodes : List WordNode} {jn : WordNode}
    (h : jn ∈ nodes) : ∃ k, getWordIndex nodes jn.word = some k := by
  induction nodes with
  | nil => simp at h
  | cons n ns ih =>
    rw [getWordIndex]
    by_cases hw : n.word = jn.word
    · exact ⟨0, by simp [hw]⟩
    · rcases List.mem_cons.mp h with rfl | hmem
      · exact absurd rfl hw
      · obtain ⟨k, hk⟩ := ih hmem
        exact ⟨k + 1, by simp [hw, hk]⟩

theorem getWordIndex_self {nodes : List WordNode}
    (hnd : (nodes.map WordNode.word).Nodup) {j : ℕ} (hj : j < nodes.length) :
    getWordIndex nodes ((nodes.getD j defaultNode).word) = some j := by
  induction nodes generalizing j with
  | nil => simp at hj
  | cons n ns ih =>
    match j with
    | 0 => simp [getWordIndex]
    | j + 1 =>
      have hj' : j < ns.length := by simpa using hj
      have hnd' : n.word ∉ ns.map WordNode.word ∧ (ns.map WordNode.word).Nodup := by
        rw [List.map_cons, List.nodup_cons] at hnd
        exact hnd
      have hmem : (ns.getD j defaultNode).word ∈ ns.map WordNode.word :=
        List.mem_map.mpr ⟨ns.getD j defaultNode, getD_mem hj', rfl⟩
      have hne : ¬ n.word = (ns.getD j defaultNode).word := fun he =>
        hnd'.1 (he ▸ hmem)
      rw [getWordIndex]
      simp only [List.getD_cons_succ, hne, if_false]
      rw [ih hnd'.2 hj']
      rfl

theorem initNodes_spec {words : List (List Char)} {L : ℕ} {nd : WordNode}
    (h : nd ∈ initNodes words L) :
    nd.charSet = nd.word.toFinset ∧ nd.word.length = L ∧ nd.charSet.card = L ∧
      nd.neighbors = ∅ := by
  obtain ⟨raw, _, hraw⟩ := List.mem_filterMap.mp h
  simp only at hraw
  split at hraw
  · exact absurd hraw (by simp)
  · split at hraw
    · exact absurd hraw (by simp)
    · rename_i hlen hcard
      obtain rfl := (Option.some_inj.mp hraw).symm
      simp only [not_not] at hlen hcard
      exact ⟨rfl, hlen, hcard, rfl⟩

theorem initNodes_getD_neighbors {words : List (List Char)} {L i : ℕ} :
    ((initNodes words L).getD i defaultNode).neighbors = ∅ := by
  by_cases hi : i < (initNodes words L).length
  · exact (initNodes_spec (getD_mem hi)).2.2.2
  · rw [List.getD_eq_getElem?_getD,
      List.getElem?_eq_none (show (initNodes words L).length ≤ i by omega)]
    rfl

theorem computeGraph_length {nodes : List WordNode} {f : Bool} :
    (computeGraph nodes f).length = nodes.length := by
  simp [computeGraph]

theorem getD_computeGraph {nodes : List WordNode} {f : Bool} {i : ℕ}
    (hi : i < nodes.length) :
    (computeGraph nodes f).getD i defaultNode =
      { nodes.getD i defaultNode with
        neighbors := neighborsLoop nodes f (nodes.getD i defaultNode) nodes
          (nodes.getD i defaultNode).neighbors 0 vowelsInit } := by
  simp [computeGraph, List.getD_eq_getElem?_getD, List.getElem?_map,
    List.getElem?_eq_getElem hi, getD_of_lt hi]

theorem nbrs_computeGraph {nodes : List WordNode} {f : Bool} {i : ℕ}
    (hi : i < nodes.length) :
    nbrs (computeGraph nodes f) i =
      neighborsLoop nodes f (nodes.getD i defaultNode) nodes
        (nodes.getD i defaultNode).neighbors 0 vowelsInit := by
  rw [nbrs, getD_computeGraph hi]

theorem nbrs_computeGraph_oob {nodes : List WordNode} {f : Bool} {i : ℕ}
    (hi : ¬ i < nodes.length) :
    nbrs (computeGraph nodes f) i = ∅ := by
  rw [nbrs, List.getD_eq_getElem?_getD,
    List.getElem?_eq_none (show (computeGraph nodes f).length ≤ i by
      rw [computeGraph_length]; omega)]
  rfl

theorem charSetAt_computeGraph {nodes : List WordNode} {f : Bool} {i : ℕ} :
    charSetAt (computeGraph nodes f) i = charSetAt nodes i := by
  by_cases hi : i < nodes.length
  · rw [charSetAt, charSetAt, getD_computeGraph hi]
  · rw [charSetAt, charSetAt, List.getD_eq_getElem?_getD, List.getD_eq_getElem?_getD,
      List.getElem?_eq_none (show (computeGraph nodes f).length ≤ i by
        rw [computeGraph_length]; omega),
      List.getElem?_eq_none (show nodes.length ≤ i by omega)]

theorem mem_neighborsLoop_strict {allN : List WordNode} {node : WordNode}
    (l : List WordNode) (acc : Finset ℕ) (nf : ℕ) (vl : List Char) (x : ℕ) :
    x ∈ neighborsLoop allN false node l acc nf vl ↔
      x ∈ acc ∨ ∃ jn ∈ l, (node.charSet ∩ jn.charSet).card = 0 ∧
        (getWordIndex allN jn.word).getD 0 = x := by
  induction l generalizing acc nf vl with
  | nil => simp [neighborsLoop]
  | cons jn rest ih =>
    rw [neighborsLoop]
    by_cases h0 : (node.charSet ∩ jn.charSet).card = 0
    · simp only [h0, if_true, ih, Finset.mem_insert]
      constructor
      · rintro (⟨rfl | hacc⟩ | ⟨jn', hjn', hc, hx⟩)
        · exact Or.inr ⟨jn, by simp, h0, rfl⟩
        · exact Or.inl (by assumption)
        · exact Or.inr ⟨jn', by simp [hjn'], hc, hx⟩
      · rintro (hacc | ⟨jn', hjn', hc, hx⟩)
        · exact Or.inl (Or.inr hacc)
        · rcases List.mem_cons.mp hjn' with rfl | hjn'
          · exact Or.inl (Or.inl hx.symm)
          · exact Or.inr ⟨jn', hjn', hc, hx⟩
    · have hfz : ¬ (false = true ∧ (node.charSet ∩ jn.charSet).card = 1 ∧
          popCheck (popWr (node.charSet ∩ jn.charSet)) vl = true ∧ nf < 3) := by
        simp
      simp only [h0, if_false, hfz, ih]
      constructor
      · rintro (hacc | ⟨jn', hjn', hc, hx⟩)
        · exact Or.inl hacc
        · exact Or.inr ⟨jn', by simp [hjn'], hc, hx⟩
      · rintro (hacc | ⟨jn', hjn', hc, hx⟩)
        · exact Or.inl hacc
        · rcases List.mem_cons.mp hjn' with rfl | hjn'
          · exact absurd hc h0
          · exact Or.inr ⟨jn', hjn', hc, hx⟩

theorem mem_neighborsLoop_sound {allN : List WordNode} {f : Bool} {node : WordNode}
    (l : List WordNode) (acc : Finset ℕ) (nf : ℕ) (vl : List Char) (x : ℕ)
    (h : x ∈ neighborsLoop allN f node l acc nf vl) :
    x ∈ acc ∨ ∃ jn ∈ l, ((node.charSet ∩ jn.charSet).card = 0 ∨
        (node.charSet ∩ jn.charSet).card = 1) ∧
      (getWordIndex allN jn.word).getD 0 = x := by
  induction l generalizing acc nf vl with
  | nil => simpa [neighborsLoop] using h
  | cons jn rest ih =>
    rw [neighborsLoop] at h
    split at h
    · rename_i h0
      rcases ih _ _ _ h with hacc | ⟨jn', hjn', hc, hx⟩
      · rcases Finset.mem_insert.mp hacc with rfl | hacc
        · exact Or.inr ⟨jn, by simp, Or.inl h0, rfl⟩
        · exact Or.inl hacc
      · exact Or.inr ⟨jn', by simp [hjn'], hc, hx⟩
    · split at h
      · rename_i hcond
        rcases ih _ _ _ h with hacc | ⟨jn', hjn', hc, hx⟩
        · rcases Finset.mem_insert.mp hacc with rfl | hacc
          · exact Or.inr ⟨jn, by simp, Or.inr hcond.2.1, rfl⟩
          · exact Or.inl hacc
        · exact Or.inr ⟨jn', by simp [hjn'], hc, hx⟩
      · rcases ih _ _ _ h with hacc | ⟨jn', hjn', hc, hx⟩
        · exact Or.inl hacc
        · exact Or.inr ⟨jn', by simp [hjn'], hc, hx⟩

theorem mem_nbrs_strict {words : List (List Char)} {L i x : ℕ}
    (hi : i < (initNodes words L).length) :
    x ∈ nbrs (computeGraph (initNodes words L) false) i ↔
      ∃ jn ∈ initNodes words L,
        (((initNodes words L).getD i defaultNode).charSet ∩ jn.charSet).card = 0 ∧
        (getWordIndex (initNodes words L) jn.word).getD 0 = x := by
  rw [nbrs_computeGraph hi, mem_neighborsLoop_strict, initNodes_getD_neighbors]
  simp

theorem nbrs_lt_length {words : List (List Char)} {L : ℕ} {f : Bool} {i x : ℕ}
    (h : x ∈ nbrs (computeGraph (initNodes words L) f) i) :
    x < (initNodes words L).length := by
  by_cases hi : i < (initNodes words L).length
  · rw [nbrs_computeGraph hi, initNodes_getD_neighbors] at h
    rcases mem_neighborsLoop_sound _ _ _ _ _ h with hacc | ⟨jn, hjn, _, hx⟩
    · simp at hacc
    · obtain ⟨k, hk⟩ := getWordIndex_isSome_of_mem hjn
      rw [hk] at hx
      simpa [← hx] using (getWordIndex_some_spec hk).1
  · rw [nbrs_computeGraph_oob hi] at h
    simp at h

theorem noSelf_strict {words : List (List Char)} {L : ℕ} (hL : 1 ≤ L) (i : ℕ) :
    i ∉ nbrs (computeGraph (initNodes words L) false) i := by
  intro h
  by_cases hi : i < (initNodes words L).length
  · obtain ⟨jn, hjn, hc, hx⟩ := (mem_nbrs_strict hi).mp h
    obtain ⟨k, hk⟩ := getWordIndex_isSome_of_mem hjn
    rw [hk] at hx
    simp only [Option.getD_some] at hx
    subst hx
    have hword : ((initNodes words L).getD k defaultNode).word = jn.word :=
      (getWordIndex_some_spec hk).2
    have hnode := initNodes_spec (getD_mem hi)
    have hjn' := initNodes_spec hjn
    have hcs : ((initNodes words L).getD k defaultNode).charSet = jn.charSet := by
      rw [hnode.1, hjn'.1, hword]
    rw [hcs, Finset.inter_self] at hc
    have := hjn'.2.2.1
    omega
  · rw [nbrs_computeGraph_oob hi] at h
    simp at h

theorem noSelf_fuzzy {words : List (List Char)} {L : ℕ} {f : Bool} (hL : 2 ≤ L) (i : ℕ) :
    i ∉ nbrs (computeGraph (initNodes words L) f) i := by
  intro h
  by_cases hi : i < (initNodes words L).length
  · rw [nbrs_computeGraph hi, initNodes_getD_neighbors] at h
    rcases mem_neighborsLoop_sound _ _ _ _ _ h with hacc | ⟨jn, hjn, hc, hx⟩
    · simp at hacc
    · obtain ⟨k, hk⟩ := getWordIndex_isSome_of_mem hjn
      rw [hk] at hx
      simp only [Option.getD_some] at hx
      subst hx
      have hword : ((initNodes words L).getD k defaultNode).word = jn.word :=
        (getWordIndex_some_spec hk).2
      have hnode := initNodes_spec (getD_mem hi)
      have hjn' := initNodes_spec hjn
      have hcs : ((initNodes words L).getD k defaultNode).charSet = jn.charSet := by
        rw [hnode.1, hjn'.1, hword]
      rw [hcs, Finset.inter_self] at hc
      have := hjn'.2.2.1
      omega
  · rw [nbrs_computeGraph_oob hi] at h
    simp at h

/-! ### Clique-enumeration lemmas: `_clique_loop_end`, `_two_clique`, `_four_clique` -/

theorem mem_cliqueLoopEnd {prevIdx : List ℕ} {s : Finset ℕ} {t : List ℕ} :
    t ∈ cliqueLoopEnd prevIdx s ↔
      ∃ r, r ∈ s ∧ ¬ r < prevIdx.getLastD 0 ∧ t = prevIdx ++ [r] := by
  simp only [cliqueLoopEnd, List.mem_map, List.mem_filter, mem_finSort,
    Bool.not_eq_true', decide_eq_false_iff_not]
  constructor
  · rintro ⟨r, ⟨hr, hlt⟩, rfl⟩
    exact ⟨r, hr, hlt, rfl⟩
  · rintro ⟨r, hr, hlt, rfl⟩
    exact ⟨r, ⟨hr, hlt⟩, rfl⟩

theorem nodup_cliqueLoopEnd {prevIdx : List ℕ} {s : Finset ℕ} :
    (cliqueLoopEnd prevIdx s).Nodup := by
  refine List.Nodup.map_on ?_ (List.Nodup.filter _ (finSort_nodup s))
  intro x _ y _ h
  simpa using List.append_cancel_left h

theorem mem_twoClique {nodes : List WordNode} {t : List ℕ} :
    t ∈ twoClique nodes ↔
      ∃ i, i < nodes.length ∧ ∃ r, r ∈ nbrs nodes i ∧ ¬ r < i ∧ t = [i, r] := by
  simp only [twoClique, List.mem_flatMap, List.mem_range, mem_cliqueLoopEnd]
  constructor
  · rintro ⟨i, hi, r, hr, hlt, rfl⟩
    exact ⟨i, hi, r, hr, hlt, rfl⟩
  · rintro ⟨i, hi, r, hr, hlt, rfl⟩
    exact ⟨i, hi, r, hr, hlt, rfl⟩

theorem nodup_twoClique {nodes : List WordNode} : (twoClique nodes).Nodup := by
  refine nodup_flatMap (List.nodup_range _) (fun i _ => nodup_cliqueLoopEnd) ?_
  intro a _ b _ x hxa hxb
  obtain ⟨r₁, _, _, h₁⟩ := mem_cliqueLoopEnd.mp hxa
  obtain ⟨r₂, _, _, h₂⟩ := mem_cliqueLoopEnd.mp hxb
  rw [h₁] at h₂
  have hab : a = b ∧ r₁ = r₂ := by simpa using h₂
  exact hab.1

theorem twoClique_complete {nodes : List WordNode} {a b : ℕ}
    (hn : a < nodes.length) (hab : a < b) (h1 : b ∈ nbrs nodes a) :
    [a, b] ∈ twoClique nodes :=
  mem_twoClique.mpr ⟨a, hn, b, h1, by omega, rfl⟩

theorem twoClique_sound {nodes : List WordNode} {t : List ℕ}
    (noSelf : ∀ a, a ∉ nbrs nodes a)
    (hRange : ∀ a x, x ∈ nbrs nodes a → x < nodes.length)
    (h : t ∈ twoClique nodes) : soundClique nodes 2 t := by
  obtain ⟨i, hi, r, hr, hlt, rfl⟩ := mem_twoClique.mp h
  have hir : i ≠ r := fun he => noSelf i (he ▸ hr)
  refine ⟨rfl, ?_, ?_, ?_⟩
  · refine List.Pairwise.cons ?_ (List.Pairwise.cons (by simp) List.Pairwise.nil)
    intro b hb
    have : b = r := by simpa using hb
    omega
  · refine List.Pairwise.cons ?_ (List.Pairwise.cons (by simp) List.Pairwise.nil)
    intro b hb
    have : b = r := by simpa using hb
    exact this ▸ hr
  · intro x hx
    simp only [List.mem_cons, List.not_mem_nil, or_false] at hx
    rcases hx with rfl | rfl
    · exact hi
    · exact hRange i x hr

theorem mem_fourLoopK {nodes : List WordNode} {i j : ℕ} {nij : Finset ℕ} {t : List ℕ} :
    t ∈ fourLoopK nodes i j nij ↔
      ∃ k, k ∈ nij ∧ ¬ k < j ∧
        ∃ r, r ∈ nij ∩ nbrs nodes k ∧ ¬ r < k ∧ t = [i, j, k, r] := by
  simp only [fourLoopK, List.mem_flatMap, mem_finSort, mem_ite_nil, mem_cliqueLoopEnd]
  constructor
  · rintro ⟨k, hk, hkj, r, hr, hrk, rfl⟩
    exact ⟨k, hk, hkj, r, hr, hrk, rfl⟩
  · rintro ⟨k, hk, hkj, r, hr, hrk, rfl⟩
    exact ⟨k, hk, hkj, r, hr, hrk, rfl⟩

theorem mem_fourLoopJ {nodes : List WordNode} {i : ℕ} {ni : Finset ℕ} {t : List ℕ} :
    t ∈ fourLoopJ nodes i ni ↔
      ∃ j, j ∈ ni ∧ ¬ j < i ∧ ¬ (ni ∩ nbrs nodes j).card < 2 ∧
        t ∈ fourLoopK nodes i j (ni ∩ nbrs nodes j) := by
  simp only [fourLoopJ, List.mem_flatMap, mem_finSort, mem_ite_nil]

theorem mem_fourClique {nodes : List WordNode} {t : List ℕ} :
    t ∈ fourClique nodes ↔
      ∃ i, i < nodes.length ∧ t ∈ fourLoopJ nodes i (nbrs nodes i) := by
  simp only [fourClique, List.mem_flatMap, List.mem_range]

theorem fourClique_complete {nodes : List WordNode} {a b c d : ℕ}
    (hn : a < nodes.length) (hab : a < b) (hbc : b < c) (hcd : c < d)
    (h1 : b ∈ nbrs nodes a) (h2 : c ∈ nbrs nodes a) (h3 : c ∈ nbrs nodes b)
    (h4 : d ∈ nbrs nodes a) (h5 : d ∈ nbrs nodes b) (h6 : d ∈ nbrs nodes c) :
    [a, b, c, d] ∈ fourClique nodes := by
  rw [mem_fourClique]
  refine ⟨a, hn, ?_⟩
  rw [mem_fourLoopJ]
  refine ⟨b, h1, by omega, ?_, ?_⟩
  · have := two_le_card hcd (Finset.mem_inter.mpr ⟨h2, h3⟩) (Finset.mem_inter.mpr ⟨h4, h5⟩)
    omega
  · rw [mem_fourLoopK]
    refine ⟨c, Finset.mem_inter.mpr ⟨h2, h3⟩, by omega, d, ?_, by omega, rfl⟩
    exact Finset.mem_inter.mpr ⟨Finset.mem_inter.mpr ⟨h4, h5⟩, h6⟩

theorem fourClique_sound {nodes : List WordNode} {t : List ℕ}
    (noSelf : ∀ a, a ∉ nbrs nodes a)
    (hRange : ∀ a x, x ∈ nbrs nodes a → x < nodes.length)
    (h : t ∈ fourClique nodes) : soundClique nodes 4 t := by
  obtain ⟨i, hi, h⟩ := mem_fourClique.mp h
  obtain ⟨j, hj, hji, _, h⟩ := mem_fourLoopJ.mp h
  obtain ⟨k, hk, hkj, r, hr, hrk, rfl⟩ := mem_fourLoopK.mp h
  have hkI : k ∈ nbrs nodes i := (Finset.mem_inter.mp hk).1
  have hkJ : k ∈ nbrs nodes j := (Finset.mem_inter.mp hk).2
  have hrIJ := (Finset.mem_inter.mp hr).1
  have hrI : r ∈ nbrs nodes i := (Finset.mem_inter.mp hrIJ).1
  have hrJ : r ∈ nbrs nodes j := (Finset.mem_inter.mp hrIJ).2
  have hrK : r ∈ nbrs nodes k := (Finset.mem_inter.mp hr).2
  have hij : i < j := by
    have : j ≠ i := fun he => noSelf i (he ▸ hj)
    omega
  have hjk : j < k := by
    have : k ≠ j := fun he => noSelf j (he ▸ hkJ)
    omega
  have hkr : k < r := by
    have : r ≠ k := fun he => noSelf k (he ▸ hrK)
    omega
  refine ⟨rfl, ?_, ?_, ?_⟩
  · refine List.Pairwise.cons ?_ (List.Pairwise.cons ?_ (List.Pairwise.cons ?_
      (List.Pairwise.cons (by simp) List.Pairwise.nil))) <;>
    · intro b hb
      simp only [List.mem_cons, List.not_mem_nil, or_false] at hb
      rcases hb with rfl | rfl | rfl
      all_goals omega
  · refine List.Pairwise.cons ?_ (List.Pairwise.cons ?_ (List.Pairwise.cons ?_
      (List.Pairwise.cons (by simp) List.Pairwise.nil))) <;>
    · intro b hb
      simp only [List.mem_cons, List.not_mem_nil, or_false] at hb
      rcases hb with rfl | rfl | rfl
      all_goals assumption
  · intro x hx
    simp only [List.mem_cons, List.not_mem_nil, or_false] at hx
    rcases hx with rfl | rfl | rfl | rfl
    · exact hi
    · exact hRange i x hj
    · exact hRange i x hkI
    · exact hRange i x hrI

theorem shape_fourLoopK {nodes : List WordNode} {i j : ℕ} {s : Finset ℕ} {t : List ℕ}
    (h : t ∈ fourLoopK nodes i j s) : ∃ k r, t = [i, j, k, r] := by
  obtain ⟨k, _, _, r, _, _, rfl⟩ := mem_fourLoopK.mp h
  exact ⟨k, r, rfl⟩

theorem shape_fourLoopJ {nodes : List WordNode} {i : ℕ} {ni : Finset ℕ} {t : List ℕ}
    (h : t ∈ fourLoopJ nodes i ni) : ∃ j k r, t = [i, j, k, r] := by
  obtain ⟨j, _, _, _, h⟩ := mem_fourLoopJ.mp h
  obtain ⟨k, r, rfl⟩ := shape_fourLoopK h
  exact ⟨j, k, r, rfl⟩

theorem nodup_fourLoopK {nodes : List WordNode} {i j : ℕ} {s : Finset ℕ} :
    (fourLoopK nodes i j s).Nodup := by
  refine nodup_flatMap (finSort_nodup s) (fun k _ => ?_) ?_
  · split
    · exact List.nodup_nil
    · exact nodup_cliqueLoopEnd
  · intro a _ b _ x hxa hxb
    rw [mem_ite_nil] at hxa hxb
    obtain ⟨r₁, _, _, h₁⟩ := mem_cliqueLoopEnd.mp hxa.2
    obtain ⟨r₂, _, _, h₂⟩ := mem_cliqueLoopEnd.mp hxb.2
    rw [h₁] at h₂
    simpa using congrArg (fun l => l.getD 2 0) h₂

theorem nodup_fourLoopJ {nodes : List WordNode} {i : ℕ} {ni : Finset ℕ} :
    (fourLoopJ nodes i ni).Nodup := by
  refine nodup_flatMap (finSort_nodup ni) (fun j _ => ?_) ?_
  · dsimp only
    split
    · exact List.nodup_nil
    · split
      · exact List.nodup_nil
      · exact nodup_fourLoopK
  · intro a _ b _ x hxa hxb
    simp only [mem_ite_nil] at hxa hxb
    obtain ⟨k₁, r₁, h₁⟩ := shape_fourLoopK hxa.2.2
    obtain ⟨k₂, r₂, h₂⟩ := shape_fourLoopK hxb.2.2
    rw [h₁] at h₂
    simpa using congrArg (fun l => l.getD 1 0) h₂

theorem nodup_fourClique {nodes : List WordNode} : (fourClique nodes).Nodup := by
  refine nodup_flatMap (List.nodup_range _) (fun i _ => nodup_fourLoopJ) ?_
  intro a _ b _ x hxa hxb
  obtain ⟨j₁, k₁, r₁, h₁⟩ := shape_fourLoopJ hxa
  obtain ⟨j₂, k₂, r₂, h₂⟩ := shape_fourLoopJ hxb
  rw [h₁] at h₂
  simpa using congrArg (fun l => l.getD 0 0) h₂

/-! ### Clique-enumeration lemmas: `_five_clique` -/

theorem mem_fiveLoopL {nodes : List WordNode} {i j k : ℕ} {nijk : Finset ℕ} {t : List ℕ} :
    t ∈ fiveLoopL nodes i j k nijk ↔
      ∃ l, l ∈ nijk ∧ ¬ l < k ∧ ¬ (nijk ∩ nbrs nodes l).card < 1 ∧
        ∃ r, r ∈ nijk ∩ nbrs nodes l ∧ ¬ r < l ∧ t = [i, j, k, l, r] := by
  simp only [fiveLoopL, List.mem_flatMap, mem_finSort, mem_ite_nil, mem_cliqueLoopEnd]
  constructor
  · rintro ⟨l, hl, hlk, hcard, r, hr, hrl, rfl⟩
    exact ⟨l, hl, hlk, hcard, r, hr, hrl, rfl⟩
  · rintro ⟨l, hl, hlk, hcard, r, hr, hrl, rfl⟩
    exact ⟨l, hl, hlk, hcard, r, hr, hrl, rfl⟩

theorem mem_fiveLoopK {nodes : List WordNode} {i j : ℕ} {nij : Finset ℕ} {t : List ℕ} :
    t ∈ fiveLoopK nodes i j nij ↔
      ∃ k, k ∈ nij ∧ ¬ k < j ∧ ¬ (nij ∩ nbrs nodes k).card < 2 ∧
        t ∈ fiveLoopL nodes i j k (nij ∩ nbrs nodes k) := by
  simp only [fiveLoopK, List.mem_flatMap, mem_finSort, mem_ite_nil]

theorem mem_fiveLoopJ {nodes : List WordNode} {i : ℕ} {ni : Finset ℕ} {t : List ℕ} :
    t ∈ fiveLoopJ nodes i ni ↔
      ∃ j, j ∈ ni ∧ ¬ j < i ∧ ¬ (ni ∩ nbrs nodes j).card < 3 ∧
        t ∈ fiveLoopK nodes i j (ni ∩ nbrs nodes j) := by
  simp only [fiveLoopJ, List.mem_flatMap, mem_finSort, mem_ite_nil]

theorem mem_fiveClique {nodes : List WordNode} {t : List ℕ} :
    t ∈ fiveClique nodes ↔
      ∃ i, i < nodes.length ∧ t ∈ fiveLoopJ nodes i (nbrs nodes i) := by
  simp only [fiveClique, List.mem_flatMap, List.mem_range]

theorem fiveClique_complete {nodes : List WordNode} {a b c d e : ℕ}
    (hn : a < nodes.length) (hab : a < b) (hbc : b < c) (hcd : c < d) (hde : d < e)
    (hba : b ∈ nbrs nodes a)
    (hca : c ∈ nbrs nodes a) (hcb : c ∈ nbrs nodes b)
    (hda : d ∈ nbrs nodes a) (hdb : d ∈ nbrs nodes b) (hdc : d ∈ nbrs nodes c)
    (hea : e ∈ nbrs nodes a) (heb : e ∈ nbrs nodes b) (hec : e ∈ nbrs nodes c)
    (hed : e ∈ nbrs nodes d) :
    [a, b, c, d, e] ∈ fiveClique nodes := by
  have hc2 : c ∈ nbrs nodes a ∩ nbrs nodes b := Finset.mem_inter.mpr ⟨hca, hcb⟩
  have hd2 : d ∈ nbrs nodes a ∩ nbrs nodes b := Finset.mem_inter.mpr ⟨hda, hdb⟩
  have he2 : e ∈ nbrs nodes a ∩ nbrs nodes b := Finset.mem_inter.mpr ⟨hea, heb⟩
  have hd3 : d ∈ nbrs nodes a ∩ nbrs nodes b ∩ nbrs nodes c :=
    Finset.mem_inter.mpr ⟨hd2, hdc⟩
  have he3 : e ∈ nbrs nodes a ∩ nbrs nodes b ∩ nbrs nodes c :=
    Finset.mem_inter.mpr ⟨he2, hec⟩
  have he4 : e ∈ nbrs nodes a ∩ nbrs nodes b ∩ nbrs nodes c ∩ nbrs nodes d :=
    Finset.mem_inter.mpr ⟨he3, hed⟩
  rw [mem_fiveClique]
  refine ⟨a, hn, ?_⟩
  rw [mem_fiveLoopJ]
  refine ⟨b, hba, by omega, ?_, ?_⟩
  · have := three_le_card hcd hde hc2 hd2 he2
    omega
  · rw [mem_fiveLoopK]
    refine ⟨c, hc2, by omega, ?_, ?_⟩
    · have := two_le_card hde hd3 he3
      omega
    · rw [mem_fiveLoopL]
      refine ⟨d, hd3, by omega, ?_, e, he4, by omega, rfl⟩
      have : 0 < (nbrs nodes a ∩ nbrs nodes b ∩ nbrs nodes c ∩ nbrs nodes d).card :=
        Finset.card_pos.mpr ⟨e, he4⟩
      omega

theorem fiveClique_sound {nodes : List WordNode} {t : List ℕ}
    (noSelf : ∀ a, a ∉ nbrs nodes a)
    (hRange : ∀ a x, x ∈ nbrs nodes a → x < nodes.length)
    (h : t ∈ fiveClique nodes) : soundClique nodes 5 t := by
  obtain ⟨i, hi, h⟩ := mem_fiveClique.mp h
  obtain ⟨j, hj, hji, _, h⟩ := mem_fiveLoopJ.mp h
  obtain ⟨k, hk, hkj, _, h⟩ := mem_fiveLoopK.mp h
  obtain ⟨l, hl, hlk, _, r, hr, hrl, rfl⟩ := mem_fiveLoopL.mp h
  have hkI : k ∈ nbrs nodes i := (Finset.mem_inter.mp hk).1
  have hkJ : k ∈ nbrs nodes j := (Finset.mem_inter.mp hk).2
  have hl' := Finset.mem_inter.mp hl
  have hlK : l ∈ nbrs nodes k := hl'.2
  have hlI : l ∈ nbrs nodes i := (Finset.mem_inter.mp hl'.1).1
  have hlJ : l ∈ nbrs nodes j := (Finset.mem_inter.mp hl'.1).2
  have hr' := Finset.mem_inter.mp hr
  have hrL : r ∈ nbrs nodes l := hr'.2
  have hr'' := Finset.mem_inter.mp hr'.1
  have hrK : r ∈ nbrs nodes k := hr''.2
  have hrI : r ∈ nbrs nodes i := (Finset.mem_inter.mp hr''.1).1
  have hrJ : r ∈ nbrs nodes j := (Finset.mem_inter.mp hr''.1).2
  have hij : i < j := by
    have : j ≠ i := fun he => noSelf i (he ▸ hj)
    omega
  have hjk : j < k := by
    have : k ≠ j := fun he => noSelf j (he ▸ hkJ)
    omega
  have hkl : k < l := by
    have : l ≠ k := fun he => noSelf k (he ▸ hlK)
    omega
  have hlr : l < r := by
    have : r ≠ l := fun he => noSelf l (he ▸ hrL)
    omega
  refine ⟨rfl, ?_, ?_, ?_⟩
  · refine List.Pairwise.cons ?_ (List.Pairwise.cons ?_ (List.Pairwise.cons ?_
      (List.Pairwise.cons ?_ (List.Pairwise.cons (by simp) List.Pairwise.nil)))) <;>
    · intro b hb
      simp only [List.mem_cons, List.not_mem_nil, or_false] at hb
      rcases hb with rfl | rfl | rfl | rfl
      all_goals omega
  · refine List.Pairwise.cons ?_ (List.Pairwise.cons ?_ (List.Pairwise.cons ?_
      (List.Pairwise.cons ?_ (List.Pairwise.cons (by simp) List.Pairwise.nil)))) <;>
    · intro b hb
      simp only [List.mem_cons, List.not_mem_nil, or_false] at hb
      rcases hb with rfl | rfl | rfl | rfl
      all_goals assumption
  · intro x hx
    simp only [List.mem_cons, List.not_mem_nil, or_false] at hx
    rcases hx with rfl | rfl | rfl | rfl | rfl
    · exact hi
    · exact hRange i x hj
    · exact hRange i x hkI
    · exact hRange i x hlI
    · exact hRange i x hrI

theorem shape_fiveLoopL {nodes : List WordNode} {i j k : ℕ} {s : Finset ℕ} {t : List ℕ}
    (h : t ∈ fiveLoopL nodes i j k s) : ∃ l r, t = [i, j, k, l, r] := by
  obtain ⟨l, _, _, _, r, _, _, rfl⟩ := mem_fiveLoopL.mp h
  exact ⟨l, r, rfl⟩

theorem shape_fiveLoopK {nodes : List WordNode} {i j : ℕ} {s : Finset ℕ} {t : List ℕ}
    (h : t ∈ fiveLoopK nodes i j s) : ∃ k l r, t = [i, j, k, l, r] := by
  obtain ⟨k, _, _, _, h⟩ := mem_fiveLoopK.mp h
  obtain ⟨l, r, rfl⟩ := shape_fiveLoopL h
  exact ⟨k, l, r, rfl⟩

theorem shape_fiveLoopJ {nodes : List WordNode} {i : ℕ} {s : Finset ℕ} {t : List ℕ}
    (h : t ∈ fiveLoopJ nodes i s) : ∃ j k l r, t = [i, j, k, l, r] := by
  obtain ⟨j, _, _, _, h⟩ := mem_fiveLoopJ.mp h
  obtain ⟨k, l, r, rfl⟩ := shape_fiveLoopK h
  exact ⟨j, k, l, r, rfl⟩

theorem nodup_fiveLoopL {nodes : List WordNode} {i j k : ℕ} {s : Finset ℕ} :
    (fiveLoopL nodes i j k s).Nodup := by
  refine nodup_flatMap (finSort_nodup s) (fun l _ => ?_) ?_
  · dsimp only
    split
    · exact List.nodup_nil
    · split
      · exact List.nodup_nil
      · exact nodup_cliqueLoopEnd
  · intro a _ b _ x hxa hxb
    simp only [mem_ite_nil] at hxa hxb
    obtain ⟨r₁, _, _, h₁⟩ := mem_cliqueLoopEnd.mp hxa.2.2
    obtain ⟨r₂, _, _, h₂⟩ := mem_cliqueLoopEnd.mp hxb.2.2
    rw [h₁] at h₂
    simpa using congrArg (fun l' => l'.getD 3 0) h₂

theorem nodup_fiveLoopK {nodes : List WordNode} {i j : ℕ} {s : Finset ℕ} :
    (fiveLoopK nodes i j s).Nodup := by
  refine nodup_flatMap (finSort_nodup s) (fun k _ => ?_) ?_
  · dsimp only
    split
    · exact List.nodup_nil
    · split
      · exact List.nodup_nil
      · exact nodup_fiveLoopL
  · intro a _ b _ x hxa hxb
    simp only [mem_ite_nil] at hxa hxb
    obtain ⟨l₁, r₁, h₁⟩ := shape_fiveLoopL hxa.2.2
    obtain ⟨l₂, r₂, h₂⟩ := shape_fiveLoopL hxb.2.2
    rw [h₁] at h₂
    simpa using congrArg (fun l' => l'.getD 2 0) h₂

theorem nodup_fiveLoopJ {nodes : List WordNode} {i : ℕ} {s : Finset ℕ} :
    (fiveLoopJ nodes i s).Nodup := by
  refine nodup_flatMap (finSort_nodup s) (fun j _ => ?_) ?_
  · dsimp only
    split
    · exact List.nodup_nil
    · split
      · exact List.nodup_nil
      · exact nodup_fiveLoopK
  · intro a _ b _ x hxa hxb
    simp only [mem_ite_nil] at hxa hxb
    obtain ⟨k₁, l₁, r₁, h₁⟩ := shape_fiveLoopK hxa.2.2
    obtain ⟨k₂, l₂, r₂, h₂⟩ := shape_fiveLoopK hxb.2.2
    rw [h₁] at h₂
    simpa using congrArg (fun l' => l'.getD 1 0) h₂

theorem nodup_fiveClique {nodes : List WordNode} : (fiveClique nodes).Nodup := by
  refine nodup_flatMap (List.nodup_range _) (fun i _ => nodup_fiveLoopJ) ?_
  intro a _ b _ x hxa hxb
  obtain ⟨j₁, k₁, l₁, r₁, h₁⟩ := shape_fiveLoopJ hxa
  obtain ⟨j₂, k₂, l₂, r₂, h₂⟩ := shape_fiveLoopJ hxb
  rw [h₁] at h₂
  simpa using congrArg (fun l' => l'.getD 0 0) h₂

/-! ### Clique-enumeration lemmas: `_six_clique` -/

theorem mem_sixLoopM {nodes : List WordNode} {i j k l : ℕ} {nijkl : Finset ℕ} {t : List ℕ} :
    t ∈ sixLoopM nodes i j k l nijkl ↔
      ∃ m, m ∈ nijkl ∧ ¬ m < l ∧
        ∃ r, r ∈ nijkl ∩ nbrs nodes m ∧ ¬ r < m ∧ t = [i, j, k, l, m, r] := by
  simp only [sixLoopM, List.mem_flatMap, mem_finSort, mem_ite_nil, mem_cliqueLoopEnd]
  constructor
  · rintro ⟨m, hm, hml, r, hr, hrm, rfl⟩
    exact ⟨m, hm, hml, r, hr, hrm, rfl⟩
  · rintro ⟨m, hm, hml, r, hr, hrm, rfl⟩
    exact ⟨m, hm, hml, r, hr, hrm, rfl⟩

theorem mem_sixLoopL {nodes : List WordNode} {i j k : ℕ} {nijk : Finset ℕ} {t : List ℕ} :
    t ∈ sixLoopL nodes i j k nijk ↔
      ∃ l, l ∈ nijk ∧ ¬ l < k ∧ ¬ (nijk ∩ nbrs nodes l).card < 2 ∧
        t ∈ sixLoopM nodes i j k l (nijk ∩ nbrs nodes l) := by
  simp only [sixLoopL, List.mem_flatMap, mem_finSort, mem_ite_nil]

theorem mem_sixLoopK {nodes : List WordNode} {i j : ℕ} {nij : Finset ℕ} {t : List ℕ} :
    t ∈ sixLoopK nodes i j nij ↔
      ∃ k, k ∈ nij ∧ ¬ k < j ∧ ¬ (nij ∩ nbrs nodes k).card < 3 ∧
        t ∈ sixLoopL nodes i j k (nij ∩ nbrs nodes k) := by
  simp only [sixLoopK, List.mem_flatMap, mem_finSort, mem_ite_nil]

theorem mem_sixLoopJ {nodes : List WordNode} {i : ℕ} {ni : Finset ℕ} {t : List ℕ} :
    t ∈ sixLoopJ nodes i ni ↔
      ∃ j, j ∈ ni ∧ ¬ j < i ∧ ¬ (ni ∩ nbrs nodes j).card < 4 ∧
        t ∈ sixLoopK nodes i j (ni ∩ nbrs nodes j) := by
  simp only [sixLoopJ, List.mem_flatMap, mem_finSort, mem_ite_nil]

theorem mem_sixClique {nodes : List WordNode} {t : List ℕ} :
    t ∈ sixClique nodes ↔
      ∃ i, i < nodes.length ∧ t ∈ sixLoopJ nodes i (nbrs nodes i) := by
  simp only [sixClique, List.mem_flatMap, List.mem_range]

theorem sixClique_complete {nodes : List WordNode} {a b c d e f : ℕ}
    (hn : a < nodes.length) (hab : a < b) (hbc : b < c) (hcd : c < d) (hde : d < e)
    (hef : e < f)
    (hba : b ∈ nbrs nodes a)
    (hca : c ∈ nbrs nodes a) (hcb : c ∈ nbrs nodes b)
    (hda : d ∈ nbrs nodes a) (hdb : d ∈ nbrs nodes b) (hdc : d ∈ nbrs nodes c)
    (hea : e ∈ nbrs nodes a) (heb : e ∈ nbrs nodes b) (hec : e ∈ nbrs nodes c)
    (hed : e ∈ nbrs nodes d)
    (hfa : f ∈ nbrs nodes a) (hfb : f ∈ nbrs nodes b) (hfc : f ∈ nbrs nodes c)
    (hfd : f ∈ nbrs nodes d) (hfe : f ∈ nbrs nodes e) :
    [a, b, c, d, e, f] ∈ sixClique nodes := by
  have hc2 : c ∈ nbrs nodes a ∩ nbrs nodes b := Finset.mem_inter.mpr ⟨hca, hcb⟩
  have hd2 : d ∈ nbrs nodes a ∩ nbrs nodes b := Finset.mem_inter.mpr ⟨hda, hdb⟩
  have he2 : e ∈ nbrs nodes a ∩ nbrs nodes b := Finset.mem_inter.mpr ⟨hea, heb⟩
  have hf2 : f ∈ nbrs nodes a ∩ nbrs nodes b := Finset.mem_inter.mpr ⟨hfa, hfb⟩
  have hd3 : d ∈ nbrs nodes a ∩ nbrs nodes b ∩ nbrs nodes c :=
    Finset.mem_inter.mpr ⟨hd2, hdc⟩
  have he3 : e ∈ nbrs nodes a ∩ nbrs nodes b ∩ nbrs nodes c :=
    Finset.mem_inter.mpr ⟨he2, hec⟩
  have hf3 : f ∈ nbrs nodes a ∩ nbrs nodes b ∩ nbrs nodes c :=
    Finset.mem_inter.mpr ⟨hf2, hfc⟩
  have he4 : e ∈ nbrs nodes a ∩ nbrs nodes b ∩ nbrs nodes c ∩ nbrs nodes d :=
    Finset.mem_inter.mpr ⟨he3, hed⟩
  have hf4 : f ∈ nbrs nodes a ∩ nbrs nodes b ∩ nbrs nodes c ∩ nbrs nodes d :=
    Finset.mem_inter.mpr ⟨hf3, hfd⟩
  have hf5 : f ∈ nbrs nodes a ∩ nbrs nodes b ∩ nbrs nodes c ∩ nbrs nodes d ∩ nbrs nodes e :=
    Finset.mem_inter.mpr ⟨hf4, hfe⟩
  rw [mem_sixClique]
  refine ⟨a, hn, ?_⟩
  rw [mem_sixLoopJ]
  refine ⟨b, hba, by omega, ?_, ?_⟩
  · have := four_le_card hcd hde hef hc2 hd2 he2 hf2
    omega
  · rw [mem_sixLoopK]
    refine ⟨c, hc2, by omega, ?_, ?_⟩
    · have := three_le_card hde hef hd3 he3 hf3
      omega
    · rw [mem_sixLoopL]
      refine ⟨d, hd3, by omega, ?_, ?_⟩
      · have := two_le_card hef he4 hf4
        omega
      · rw [mem_sixLoopM]
        exact ⟨e, he4, by omega, f, hf5, by omega, rfl⟩

theorem sixClique_sound {nodes : List WordNode} {t : List ℕ}
    (noSelf : ∀ a, a ∉ nbrs nodes a)
    (hRange : ∀ a x, x ∈ nbrs nodes a → x < nodes.length)
    (h : t ∈ sixClique nodes) : soundClique nodes 6 t := by
  obtain ⟨i, hi, h⟩ := mem_sixClique.mp h
  obtain ⟨j, hj, hji, _, h⟩ := mem_sixLoopJ.mp h
  obtain ⟨k, hk, hkj, _, h⟩ := mem_sixLoopK.mp h
  obtain ⟨l, hl, hlk, _, h⟩ := mem_sixLoopL.mp h
  obtain ⟨m, hm, hml, r, hr, hrm, rfl⟩ := mem_sixLoopM.mp h
  have hkI : k ∈ nbrs nodes i := (Finset.mem_inter.mp hk).1
  have hkJ : k ∈ nbrs nodes j := (Finset.mem_inter.mp hk).2
  have hl' := Finset.mem_inter.mp hl
  have hlK : l ∈ nbrs nodes k := hl'.2
  have hlI : l ∈ nbrs nodes i := (Finset.mem_inter.mp hl'.1).1
  have hlJ : l ∈ nbrs nodes j := (Finset.mem_inter.mp hl'.1).2
  have hm' := Finset.mem_inter.mp hm
  have hmL : m ∈ nbrs nodes l := hm'.2
  have hm'' := Finset.mem_inter.mp hm'.1
  have hmK : m ∈ nbrs nodes k := hm''.2
  have hmI : m ∈ nbrs nodes i := (Finset.mem_inter.mp hm''.1).1
  have hmJ : m ∈ nbrs nodes j := (Finset.mem_inter.mp hm''.1).2
  have hr' := Finset.mem_inter.mp hr
  have hrM : r ∈ nbrs nodes m := hr'.2
  have hr'' := Finset.mem_inter.mp hr'.1
  have hrL : r ∈ nbrs nodes l := hr''.2
  have hr''' := Finset.mem_inter.mp hr''.1
  have hrK : r ∈ nbrs nodes k := hr'''.2
  have hrI : r ∈ nbrs nodes i := (Finset.mem_inter.mp hr'''.1).1
  have hrJ : r ∈ nbrs nodes j := (Finset.mem_inter.mp hr'''.1).2
  have hij : i < j := by
    have : j ≠ i := fun he => noSelf i (he ▸ hj)
    omega
  have hjk : j < k := by
    have : k ≠ j := fun he => noSelf j (he ▸ hkJ)
    omega
  have hkl : k < l := by
    have : l ≠ k := fun he => noSelf k (he ▸ hlK)
    omega
  have hlm : l < m := by
    have : m ≠ l := fun he => noSelf l (he ▸ hmL)
    omega
  have hmr : m < r := by
    have : r ≠ m := fun he => noSelf m (he ▸ hrM)
    omega
  refine ⟨rfl, ?_, ?_, ?_⟩
  · refine List.Pairwise.cons ?_ (List.Pairwise.cons ?_ (List.Pairwise.cons ?_
      (List.Pairwise.cons ?_ (List.Pairwise.cons ?_
        (List.Pairwise.cons (by simp) List.Pairwise.nil))))) <;>
    · intro b hb
      simp only [List.mem_cons, List.not_mem_nil, or_false] at hb
      rcases hb with rfl | rfl | rfl | rfl | rfl
      all_goals omega
  · refine List.Pairwise.cons ?_ (List.Pairwise.cons ?_ (List.Pairwise.cons ?_
      (List.Pairwise.cons ?_ (List.Pairwise.cons ?_
        (List.Pairwise.cons (by simp) List.Pairwise.nil))))) <;>
    · intro b hb
      simp only [List.mem_cons, List.not_mem_nil, or_false] at hb
      rcases hb with rfl | rfl | rfl | rfl | rfl
      all_goals assumption
  · intro x hx
    simp only [List.mem_cons, List.not_mem_nil, or_false] at hx
    rcases hx with rfl | rfl | rfl | rfl | rfl | rfl
    · exact hi
    · exact hRange i x hj
    · exact hRange i x hkI
    · exact hRange i x hlI
    · exact hRange i x hmI
    · exact hRange i x hrI

theorem shape_sixLoopM {nodes : List WordNode} {i j k l : ℕ} {s : Finset ℕ} {t : List ℕ}
    (h : t ∈ sixLoopM nodes i j k l s) : ∃ m r, t = [i, j, k, l, m, r] := by
  obtain ⟨m, _, _, r, _, _, rfl⟩ := mem_sixLoopM.mp h
  exact ⟨m, r, rfl⟩

theorem shape_sixLoopL {nodes : List WordNode} {i j k : ℕ} {s : Finset ℕ} {t : List ℕ}
    (h : t ∈ sixLoopL nodes i j k s) : ∃ l m r, t = [i, j, k, l, m, r] := by
  obtain ⟨l, _, _, _, h⟩ := mem_sixLoopL.mp h
  obtain ⟨m, r, rfl⟩ := shape_sixLoopM h
  exact ⟨l, m, r, rfl⟩

theorem shape_sixLoopK {nodes : List WordNode} {i j : ℕ} {s : Finset ℕ} {t : List ℕ}
    (h : t ∈ sixLoopK nodes i j s) : ∃ k l m r, t = [i, j, k, l, m, r] := by
  obtain ⟨k, _, _, _, h⟩ := mem_sixLoopK.mp h
  obtain ⟨l, m, r, rfl⟩ := shape_sixLoopL h
  exact ⟨k, l, m, r, rfl⟩

theorem shape_sixLoopJ {nodes : List WordNode} {i : ℕ} {s : Finset ℕ} {t : List ℕ}
    (h : t ∈ sixLoopJ nodes i s) : ∃ j k l m r, t = [i, j, k, l, m, r] := by
  obtain ⟨j, _, _, _, h⟩ := mem_sixLoopJ.mp h
  obtain ⟨k, l, m, r, rfl⟩ := shape_sixLoopK h
  exact ⟨j, k, l, m, r, rfl⟩

theorem nodup_sixLoopM {nodes : List WordNode} {i j k l : ℕ} {s : Finset ℕ} :
    (sixLoopM nodes i j k l s).Nodup := by
  refine nodup_flatMap (finSort_nodup s) (fun m _ => ?_) ?_
  · split
    · exact List.nodup_nil
    · exact nodup_cliqueLoopEnd
  · intro a _ b _ x hxa hxb
    rw [mem_ite_nil] at hxa hxb
    obtain ⟨r₁, _, _, h₁⟩ := mem_cliqueLoopEnd.mp hxa.2
    obtain ⟨r₂, _, _, h₂⟩ := mem_cliqueLoopEnd.mp hxb.2
    rw [h₁] at h₂
    simpa using congrArg (fun l' => l'.getD 4 0) h₂

theorem nodup_sixLoopL {nodes : List WordNode} {i j k : ℕ} {s : Finset ℕ} :
    (sixLoopL nodes i j k s).Nodup := by
  refine nodup_flatMap (finSort_nodup s) (fun l _ => ?_) ?_
  · dsimp only
    split
    · exact List.nodup_nil
    · split
      · exact List.nodup_nil
      · exact nodup_sixLoopM
  · intro a _ b _ x hxa hxb
    simp only [mem_ite_nil] at hxa hxb
    obtain ⟨m₁, r₁, h₁⟩ := shape_sixLoopM hxa.2.2
    obtain ⟨m₂, r₂, h₂⟩ := shape_sixLoopM hxb.2.2
    rw [h₁] at h₂
    simpa using congrArg (fun l' => l'.getD 3 0) h₂

theorem nodup_sixLoopK {nodes : List WordNode} {i j : ℕ} {s : Finset ℕ} :
    (sixLoopK nodes i j s).Nodup := by
  refine nodup_flatMap (finSort_nodup s) (fun k _ => ?_) ?_
  · dsimp only
    split
    · exact List.nodup_nil
    · split
      · exact List.nodup_nil
      · exact nodup_sixLoopL
  · intro a _ b _ x hxa hxb
    simp only [mem_ite_nil] at hxa hxb
    obtain ⟨l₁, m₁, r₁, h₁⟩ := shape_sixLoopL hxa.2.2
    obtain ⟨l₂, m₂, r₂, h₂⟩ := shape_sixLoopL hxb.2.2
    rw [h₁] at h₂
    simpa using congrArg (fun l' => l'.getD 2 0) h₂

theorem nodup_sixLoopJ {nodes : List WordNode} {i : ℕ} {s : Finset ℕ} :
    (sixLoopJ nodes i s).Nodup := by
  refine nodup_flatMap (finSort_nodup s) (fun j _ => ?_) ?_
  · dsimp only
    split
    · exact List.nodup_nil
    · split
      · exact List.nodup_nil
      · exact nodup_sixLoopK
  · intro a _ b _ x hxa hxb
    simp only [mem_ite_nil] at hxa hxb
    obtain ⟨k₁, l₁, m₁, r₁, h₁⟩ := shape_sixLoopK hxa.2.2
    obtain ⟨k₂, l₂, m₂, r₂, h₂⟩ := shape_sixLoopK hxb.2.2
    rw [h₁] at h₂
    simpa using congrArg (fun l' => l'.getD 1 0) h₂

theorem nodup_sixClique {nodes : List WordNode} : (sixClique nodes).Nodup := by
  refine nodup_flatMap (List.nodup_range _) (fun i _ => nodup_sixLoopJ) ?_
  intro a _ b _ x hxa hxb
  obtain ⟨j₁, k₁, l₁, m₁, r₁, h₁⟩ := shape_sixLoopJ hxa
  obtain ⟨j₂, k₂, l₂, m₂, r₂, h₂⟩ := shape_sixLoopJ hxb
  rw [h₁] at h₂
  simpa using congrArg (fun l' => l'.getD 0 0) h₂

/-! ### Clique-enumeration lemmas: `_three_clique` and `_clique_layer_t` -/

theorem layerGo_cons {nodes : List WordNode}
    {recur : List ℕ → Finset ℕ → List (List ℕ) → Except String (List (List ℕ))}
    {n : ℕ} {prevIdx : List ℕ} {next : ℕ} {rest : List ℕ} {prevN : Finset ℕ}
    {cl : List (List ℕ)} :
    layerGo nodes recur n prevIdx (next :: rest) prevN cl =
      match pyGet prevIdx ((n : ℤ) - 2 - 1) with
      | none => .error "IndexError: list index out of range"
      | some p =>
        if next < p then layerGo nodes recur n prevIdx rest prevN cl
        else
          if ((prevN ∩ nbrs nodes next).card : ℤ) < (n : ℤ) - 2 then
            layerGo nodes recur n prevIdx rest prevN
              (if (n : ℤ) - 2 = 1 then
                cl ++ cliqueLoopEnd (prevIdx ++ [next]) (prevN ∩ nbrs nodes next) else cl)
          else
            match recur (prevIdx ++ [next]) (prevN ∩ nbrs nodes next)
                (if (n : ℤ) - 2 = 1 then
                  cl ++ cliqueLoopEnd (prevIdx ++ [next]) (prevN ∩ nbrs nodes next) else cl) with
            | .error e => .error e
            | .ok cl2 => layerGo nodes recur n prevIdx rest prevN cl2 := rfl

theorem layerGo_preserve {nodes : List WordNode}
    {recur : List ℕ → Finset ℕ → List (List ℕ) → Except String (List (List ℕ))}
    (hrec : ∀ pi pn c c', recur pi pn c = .ok c' → c' = c)
    {n : ℕ} (hn : (n : ℤ) - 2 ≠ 1) :
    ∀ (pending prevIdx : List ℕ) (prevN : Finset ℕ) (cl cl' : List (List ℕ)),
      layerGo nodes recur n prevIdx pending prevN cl = .ok cl' → cl' = cl := by
  intro pending
  induction pending with
  | nil =>
    intro prevIdx prevN cl cl' h
    rw [layerGo] at h
    exact (Except.ok.inj h).symm
  | cons next rest ih =>
    intro prevIdx prevN cl cl' h
    rw [layerGo_cons] at h
    cases hpg : pyGet prevIdx ((n : ℤ) - 2 - 1) with
    | none => rw [hpg] at h; simp at h
    | some p =>
      rw [hpg] at h
      simp only [if_neg hn] at h
      split_ifs at h with h1 h2
      · exact ih _ _ _ _ h
      · exact ih _ _ _ _ h
      · cases hr : recur (prevIdx ++ [next]) (prevN ∩ nbrs nodes next) cl with
        | error e => rw [hr] at h; simp at h
        | ok cl2 =>
          rw [hr] at h
          obtain rfl := hrec _ _ _ _ hr
          exact ih _ _ _ _ h

theorem cliqueLayer_preserve {nodes : List WordNode} :
    ∀ (m : ℕ), m ≤ 2 → ∀ (pi : List ℕ) (pn : Finset ℕ) (c c' : List (List ℕ)),
      cliqueLayer nodes m pi pn c = .ok c' → c' = c := by
  intro m
  induction m with
  | zero =>
    intro _ pi pn c c' h
    rw [cliqueLayer] at h
    exact layerGo_preserve (fun _ _ _ _ hh => by simp at hh) (by norm_num) _ _ _ _ _ h
  | succ m ih =>
    intro hm pi pn c c' h
    rw [cliqueLayer] at h
    refine layerGo_preserve (fun pi' pn' c₁ c₂ hh => ih (by omega) _ _ _ _ hh) ?_ _ _ _ _ _ h
    have : (m : ℤ) + 1 - 2 ≠ 1 := by omega
    push_cast
    omega

theorem layerGo3_sound {nodes : List WordNode} {i : ℕ} {ni : Finset ℕ} :
    ∀ (pending : List ℕ), (∀ x ∈ pending, x ∈ ni) →
      ∀ (cl cl' : List (List ℕ)),
        layerGo nodes (cliqueLayer nodes 2) 3 [i] pending ni cl = .ok cl' →
        ∀ t ∈ cl', t ∈ cl ∨ ∃ j, j ∈ ni ∧ ¬ j < i ∧
          ∃ r, r ∈ ni ∩ nbrs nodes j ∧ ¬ r < j ∧ t = [i, j, r] := by
  intro pending
  induction pending with
  | nil =>
    intro _ cl cl' h t ht
    rw [layerGo] at h
    obtain rfl := Except.ok.inj h
    exact Or.inl ht
  | cons next rest ih =>
    intro hpend cl cl' h t ht
    have hpend' : ∀ x ∈ rest, x ∈ ni := fun x hx => hpend x (by simp [hx])
    have hnext : next ∈ ni := hpend next (by simp)
    rw [layerGo_cons] at h
    have hp : pyGet [i] (((3 : ℕ) : ℤ) - 2 - 1) = some i := rfl
    rw [hp] at h
    simp only [if_pos (show ((3 : ℕ) : ℤ) - 2 = 1 by norm_num)] at h
    split_ifs at h with h1 h2
    · rcases ih hpend' cl cl' h t ht with h' | h'
      · exact Or.inl h'
      · exact Or.inr h'
    · rcases ih hpend' _ _ h t ht with h' | h'
      · rcases List.mem_append.mp h' with h'' | h''
        · exact Or.inl h''
        · obtain ⟨r, hr, hrlt, rfl⟩ := mem_cliqueLoopEnd.mp h''
          exact Or.inr ⟨next, hnext, h1, r, hr, hrlt, rfl⟩
      · exact Or.inr h'
    · cases hr : cliqueLayer nodes 2 ([i] ++ [next]) (ni ∩ nbrs nodes next)
          (cl ++ cliqueLoopEnd ([i] ++ [next]) (ni ∩ nbrs nodes next)) with
      | error e => rw [hr] at h; simp at h
      | ok cl2 =>
        rw [hr] at h
        obtain rfl := cliqueLayer_preserve 2 (by omega) _ _ _ _ hr
        rcases ih hpend' _ _ h t ht with h' | h'
        · rcases List.mem_append.mp h' with h'' | h''
          · exact Or.inl h''
          · obtain ⟨r, hr', hrlt, rfl⟩ := mem_cliqueLoopEnd.mp h''
            exact Or.inr ⟨next, hnext, h1, r, hr', hrlt, rfl⟩
        · exact Or.inr h'

theorem threeGo_sound {nodes : List WordNode} :
    ∀ (lst : List ℕ) (cl cl' : List (List ℕ)),
      threeGo nodes lst cl = .ok cl' →
      ∀ t ∈ cl', t ∈ cl ∨ ∃ i ∈ lst, ∃ j, j ∈ nbrs nodes i ∧ ¬ j < i ∧
        ∃ r, r ∈ nbrs nodes i ∩ nbrs nodes j ∧ ¬ r < j ∧ t = [i, j, r] := by
  intro lst
  induction lst with
  | nil =>
    intro cl cl' h t ht
    rw [threeGo] at h
    obtain rfl := Except.ok.inj h
    exact Or.inl ht
  | cons i rest ih =>
    intro cl cl' h t ht
    rw [threeGo] at h
    cases hcl : cliqueLayerT nodes 3 [i] (nbrs nodes i) cl with
    | error e => rw [hcl] at h; simp at h
    | ok cl1 =>
      rw [hcl] at h
      rcases ih _ _ h t ht with h1 | ⟨i', hi', hem⟩
      · have h3 : layerGo nodes (cliqueLayer nodes 2) 3 [i] (finSort (nbrs nodes i))
            (nbrs nodes i) cl = .ok cl1 := hcl
        rcases layerGo3_sound _ (fun x hx => (mem_finSort _ _).mp hx) _ _ h3 t h1 with h' | h'
        · exact Or.inl h'
        · exact Or.inr ⟨i, by simp, h'⟩
      · exact Or.inr ⟨i', by simp [hi'], hem⟩

theorem threeClique_sound {nodes : List WordNode} {cl' : List (List ℕ)}
    (noSelf : ∀ a, a ∉ nbrs nodes a)
    (hRange : ∀ a x, x ∈ nbrs nodes a → x < nodes.length)
    (h : threeClique nodes = .ok cl') :
    ∀ t ∈ cl', soundClique nodes 3 t := by
  intro t ht
  rcases threeGo_sound _ _ _ h t ht with h' | ⟨i, hi, j, hj, hji, r, hr, hrj, rfl⟩
  · simp at h'
  · have hiN : i < nodes.length := List.mem_range.mp hi
    have hrI : r ∈ nbrs nodes i := (Finset.mem_inter.mp hr).1
    have hrJ : r ∈ nbrs nodes j := (Finset.mem_inter.mp hr).2
    have hij : i < j := by
      have : j ≠ i := fun he => noSelf i (he ▸ hj)
      omega
    have hjr : j < r := by
      have : r ≠ j := fun he => noSelf j (he ▸ hrJ)
      omega
    refine ⟨rfl, ?_, ?_, ?_⟩
    · refine List.Pairwise.cons ?_ (List.Pairwise.cons ?_
        (List.Pairwise.cons (by simp) List.Pairwise.nil)) <;>
      · intro b hb
        simp only [List.mem_cons, List.not_mem_nil, or_false] at hb
        rcases hb with rfl | rfl
        all_goals omega
    · refine List.Pairwise.cons ?_ (List.Pairwise.cons ?_
        (List.Pairwise.cons (by simp) List.Pairwise.nil)) <;>
      · intro b hb
        simp only [List.mem_cons, List.not_mem_nil, or_false] at hb
        rcases hb with rfl | rfl
        all_goals assumption
    · intro x hx
      simp only [List.mem_cons, List.not_mem_nil, or_false] at hx
      rcases hx with rfl | rfl | rfl
      · exact hiN
      · exact hRange i x hj
      · exact hRange i x hrI

/-! ### Pipeline glue lemmas -/

theorem getCliqueList_two {nodes : List WordNode} {L : ℕ} (h : 26 / L = 2) :
    getCliqueList nodes L = .ok (twoClique nodes) := by
  simp [getCliqueList, h]

theorem getCliqueList_three {nodes : List WordNode} {L : ℕ} (h : 26 / L = 3) :
    getCliqueList nodes L = threeClique nodes := by
  simp [getCliqueList, h]

theorem getCliqueList_four {nodes : List WordNode} {L : ℕ} (h : 26 / L = 4) :
    getCliqueList nodes L = .ok (fourClique nodes) := by
  simp [getCliqueList, h]

theorem getCliqueList_five {nodes : List WordNode} {L : ℕ} (h : 26 / L = 5) :
    getCliqueList nodes L = .ok (fiveClique nodes) := by
  simp [getCliqueList, h]

theorem getCliqueList_six {nodes : List WordNode} {L : ℕ} (h : 26 / L = 6) :
    getCliqueList nodes L = .ok (sixClique nodes) := by
  simp [getCliqueList, h]

theorem getCliqueList_other {nodes : List WordNode} {L : ℕ} (h2 : 26 / L ≠ 2)
    (h3 : 26 / L ≠ 3) (h4 : 26 / L ≠ 4) (h5 : 26 / L ≠ 5) (h6 : 26 / L ≠ 6) :
    getCliqueList nodes L = .ok [] := by
  simp [getCliqueList, h2, h3, h4, h5, h6]

theorem computeCliques_eq {words : List (List Char)} {L : ℕ} {fz : Bool}
    (hval : ¬ (L ≤ 0 ∨ 26 < L)) (hw : ¬ words.length ≤ 0) :
    computeCliques words L fz =
      match getCliqueList (computeGraph (initNodes words L) false) L with
      | .error e => .error e
      | .ok cliques =>
          .ok (cliques, getWordRepr (computeGraph (initNodes words L) false) cliques) := by
  rw [computeCliques, if_neg hval, graphInit, if_neg hw]

theorem computeCliques_ok {words : List (List Char)} {L : ℕ} {fz : Bool}
    {out : List (List ℕ) × List (List (List Char))}
    (h : computeCliques words L fz = .ok out) :
    1 ≤ L ∧ L ≤ 26 ∧ words ≠ [] ∧
      getCliqueList (computeGraph (initNodes words L) false) L = .ok out.1 ∧
      out.2 = getWordRepr (computeGraph (initNodes words L) false) out.1 := by
  by_cases hval : L ≤ 0 ∨ 26 < L
  · rw [computeCliques, if_pos hval] at h
    exact Except.noConfusion h
  · by_cases hw : words.length ≤ 0
    · rw [computeCliques, if_neg hval, graphInit, if_pos hw] at h
      exact Except.noConfusion h
    · rw [computeCliques_eq hval hw] at h
      cases hg : getCliqueList (computeGraph (initNodes words L) false) L with
      | error e => rw [hg] at h; exact Except.noConfusion h
      | ok cl =>
        rw [hg] at h
        obtain rfl := (Except.ok.inj h).symm
        push_neg at hval
        refine ⟨by omega, by omega, ?_, by simp [hg], rfl⟩
        intro he
        subst he
        simp at hw

theorem nodup_map_toFinset {out : List (List ℕ)}
    (hnodup : out.Nodup) (hsorted : ∀ t ∈ out, t.Pairwise (· < ·)) :
    (out.map List.toFinset).Nodup := by
  refine List.Nodup.map_on ?_ hnodup
  intro x hx y hy hxy
  have hx' : x.Nodup := (hsorted x hx).imp (fun h => Nat.ne_of_lt h)
  have hy' : y.Nodup := (hsorted y hy).imp (fun h => Nat.ne_of_lt h)
  have hperm : x.Perm y := (List.perm_ext_iff_of_nodup hx' hy').mpr (fun a => by
    rw [← List.mem_toFinset, ← List.mem_toFinset, hxy])
  haveI : IsAntisymm ℕ (· < ·) := ⟨fun a b h1 h2 => absurd h1 (by omega)⟩
  exact List.eq_of_perm_of_sorted hperm (hsorted x hx) (hsorted y hy)

theorem list_len_four {t : List ℕ} (h : t.length = 4) :
    ∃ a b c d, t = [a, b, c, d] := by
  rcases t with _ | ⟨a, _ | ⟨b, _ | ⟨c, _ | ⟨d, _ | ⟨e, t⟩⟩⟩⟩⟩
  · simp at h
  · simp at h
  · simp at h
  · simp at h
  · exact ⟨a, b, c, d, rfl⟩
  · simp at h

theorem list_len_five {t : List ℕ} (h : t.length = 5) :
    ∃ a b c d e, t = [a, b, c, d, e] := by
  rcases t with _ | ⟨a, _ | ⟨b, _ | ⟨c, _ | ⟨d, _ | ⟨e, _ | ⟨f, t⟩⟩⟩⟩⟩⟩
  · simp at h
  · simp at h
  · simp at h
  · simp at h
  · simp at h
  · exact ⟨a, b, c, d, e, rfl⟩
  · simp at h

theorem list_len_six {t : List ℕ} (h : t.length = 6) :
    ∃ a b c d e f, t = [a, b, c, d, e, f] := by
  rcases t with _ | ⟨a, _ | ⟨b, _ | ⟨c, _ | ⟨d, _ | ⟨e, _ | ⟨f, _ | ⟨g, t⟩⟩⟩⟩⟩⟩⟩
  · simp at h
  · simp at h
  · simp at h
  · simp at h
  · simp at h
  · simp at h
  · exact ⟨a, b, c, d, e, f, rfl⟩
  · simp at h

/-! ### Claim theorems -/

/-- C2: every clique emitted by the enumeration, for any supported length, is a
strictly increasing sequence of valid node indices of length `k = ⌊26 / length⌋`,
and for every pair of positions `a < b` within it, the index at position `b` is a
member of the neighbor set of the node at position `a` (the `soundClique` predicate
over the strict graph the pipeline builds). -/
theorem claimC2_soundness :
    ∀ (words : List (List Char)) (length : ℕ) (fz : Bool)
      (out : List (List ℕ) × List (List (List Char))),
      computeCliques words length fz = .ok out →
      ∀ c ∈ out.1,
        soundClique (computeGraph (initNodes words length) false) (26 / length) c := by
  intro words length fz out h c hc
  obtain ⟨hL1, _, _, hg, _⟩ := computeCliques_ok h
  have noSelf : ∀ a, a ∉ nbrs (computeGraph (initNodes words length) false) a :=
    noSelf_strict hL1
  have hRange : ∀ a x, x ∈ nbrs (computeGraph (initNodes words length) false) a →
      x < (computeGraph (initNodes words length) false).length := fun a x hx => by
    rw [computeGraph_length]
    exact nbrs_lt_length hx
  by_cases h2 : 26 / length = 2
  · rw [getCliqueList_two h2] at hg
    rw [← (Except.ok.inj hg)] at hc
    rw [h2]
    exact twoClique_sound noSelf hRange hc
  · by_cases h3 : 26 / length = 3
    · rw [getCliqueList_three h3] at hg
      rw [h3]
      exact threeClique_sound noSelf hRange hg c hc
    · by_cases h4 : 26 / length = 4
      · rw [getCliqueList_four h4] at hg
        rw [← (Except.ok.inj hg)] at hc
        rw [h4]
        exact fourClique_sound noSelf hRange hc
      · by_cases h5 : 26 / length = 5
        · rw [getCliqueList_five h5] at hg
          rw [← (Except.ok.inj hg)] at hc
          rw [h5]
          exact fiveClique_sound noSelf hRange hc
        · by_cases h6 : 26 / length = 6
          · rw [getCliqueList_six h6] at hg
            rw [← (Except.ok.inj hg)] at hc
            rw [h6]
            exact sixClique_sound noSelf hRange hc
          · rw [getCliqueList_other h2 h3 h4 h5 h6] at hg
            rw [← (Except.ok.inj hg)] at hc
            simp at hc

/-- Witness for C2: the pipeline run on the spec's six length-4 words emits the
clique `[0,1,2,3,4,5]`, and `claimC2_soundness` certifies it is sound. -/
theorem claimC2_witness :
    soundClique (computeGraph (initNodes sixWords 4) false) (26 / 4) [0, 1, 2, 3, 4, 5] :=
  claimC2_soundness sixWords 4 false ([[0, 1, 2, 3, 4, 5]], [sixWords]) (by rfl)
    [0, 1, 2, 3, 4, 5] (by simp)

/-- C1 counterexample: as stated, the claim fails.  At length 3 the implied clique
size is `k = ⌊26/3⌋ = 8 ≥ 2` and the eight pairwise-disjoint words `eightWords`
form a valid 8-clique `[0,…,7]`, yet `_get_clique_list` has no handler for 8 words
and returns the empty list, so the output is not complete; and at length 7
(`k = 3`) five pairwise-disjoint 7-character strings drive `_clique_layer_t` to
layer `n = -1`, so the enumeration raises a `ValueError` instead of returning any
clique list at all. -/
theorem claimC1_counterexample :
    (getCliqueList (computeGraph (initNodes eightWords 3) false) 3 = .ok [] ∧
      soundClique (computeGraph (initNodes eightWords 3) false) (26 / 3)
        [0, 1, 2, 3, 4, 5, 6, 7] ∧
      [0, 1, 2, 3, 4, 5, 6, 7] ∉ ([] : List (List ℕ))) ∧
    getCliqueList (computeGraph (initNodes fiveDisjoint7 7) false) 7 =
      .error (layerMsg (-1)) := by
  refine ⟨⟨by rfl, ⟨by rfl, by decide, by decide, by decide⟩, by simp⟩, by rfl⟩

/-- C1 (amended): for every word list and every length whose implied clique size
`k = ⌊26/length⌋` is one of 2, 4, 5, 6 (the per-arity handlers that cannot raise),
the enumeration over the built strict graph is complete — it emits every strictly
increasing index tuple in which each later index is a neighbor of every earlier
index — and duplicate-free (no two output tuples denote the same index set); for
`k = 3` the search can raise a `ValueError` (see the counterexample), and every
other `k` yields the empty list.  For the six words abcd…uvwx at length 4 it
returns exactly one clique, `[0,1,2,3,4,5]`. -/
theorem claimC1_amended :
    (∀ (words : List (List Char)) (length : ℕ),
      (26 / length = 2 ∨ 26 / length = 4 ∨ 26 / length = 5 ∨ 26 / length = 6) →
      ∃ out, getCliqueList (computeGraph (initNodes words length) false) length = .ok out ∧
        (∀ t, soundClique (computeGraph (initNodes words length) false) (26 / length) t →
          t ∈ out) ∧
        (out.map List.toFinset).Nodup) ∧
    getCliqueList (computeGraph (initNodes sixWords 4) false) 4 = .ok [[0, 1, 2, 3, 4, 5]] := by
  constructor
  · intro words length hk
    have hL : 1 ≤ length := by
      rcases Nat.eq_zero_or_pos length with rfl | h
      · simp [Nat.div_zero] at hk
      · omega
    have noSelf : ∀ a, a ∉ nbrs (computeGraph (initNodes words length) false) a :=
      noSelf_strict hL
    have hRange : ∀ a x, x ∈ nbrs (computeGraph (initNodes words length) false) a →
        x < (computeGraph (initNodes words length) false).length := fun a x hx => by
      rw [computeGraph_length]
      exact nbrs_lt_length hx
    rcases hk with hk | hk | hk | hk
    · refine ⟨twoClique _, getCliqueList_two hk, ?_, ?_⟩
      · intro t ht
        rw [hk] at ht
        obtain ⟨hlen, hpl, hpn, hrg⟩ := ht
        obtain ⟨a, b, rfl⟩ := List.length_eq_two.mp hlen
        have hab : a < b := (List.pairwise_cons.mp hpl).1 b (by simp)
        have hba : b ∈ nbrs (computeGraph (initNodes words length) false) a :=
          (List.pairwise_cons.mp hpn).1 b (by simp)
        have hn : a < (computeGraph (initNodes words length) false).length :=
          hrg a (by simp)
        exact twoClique_complete hn hab hba
      · exact nodup_map_toFinset nodup_twoClique
          (fun t ht => (twoClique_sound noSelf hRange ht).2.1)
    · refine ⟨fourClique _, getCliqueList_four hk, ?_, ?_⟩
      · intro t ht
        rw [hk] at ht
        obtain ⟨hlen, hpl, hpn, hrg⟩ := ht
        obtain ⟨a, b, c, d, rfl⟩ := list_len_four hlen
        have p1 := List.pairwise_cons.mp hpl
        have p2 := List.pairwise_cons.mp p1.2
        have p3 := List.pairwise_cons.mp p2.2
        have q1 := List.pairwise_cons.mp hpn
        have q2 := List.pairwise_cons.mp q1.2
        have q3 := List.pairwise_cons.mp q2.2
        exact fourClique_complete (hrg a (by simp))
          (p1.1 b (by simp)) (p2.1 c (by simp)) (p3.1 d (by simp))
          (q1.1 b (by simp)) (q1.1 c (by simp)) (q2.1 c (by simp))
          (q1.1 d (by simp)) (q2.1 d (by simp)) (q3.1 d (by simp))
      · exact nodup_map_toFinset nodup_fourClique
          (fun t ht => (fourClique_sound noSelf hRange ht).2.1)
    · refine ⟨fiveClique _, getCliqueList_five hk, ?_, ?_⟩
      · intro t ht
        rw [hk] at ht
        obtain ⟨hlen, hpl, hpn, hrg⟩ := ht
        obtain ⟨a, b, c, d, e, rfl⟩ := list_len_five hlen
        have p1 := List.pairwise_cons.mp hpl
        have p2 := List.pairwise_cons.mp p1.2
        have p3 := List.pairwise_cons.mp p2.2
        have p4 := List.pairwise_cons.mp p3.2
        have q1 := List.pairwise_cons.mp hpn
        have q2 := List.pairwise_cons.mp q1.2
        have q3 := List.pairwise_cons.mp q2.2
        have q4 := List.pairwise_cons.mp q3.2
        exact fiveClique_complete (hrg a (by simp))
          (p1.1 b (by simp)) (p2.1 c (by simp)) (p3.1 d (by simp)) (p4.1 e (by simp))
          (q1.1 b (by simp))
          (q1.1 c (by simp)) (q2.1 c (by simp))
          (q1.1 d (by simp)) (q2.1 d (by simp)) (q3.1 d (by simp))
          (q1.1 e (by simp)) (q2.1 e (by simp)) (q3.1 e (by simp)) (q4.1 e (by simp))
      · exact nodup_map_toFinset nodup_fiveClique
          (fun t ht => (fiveClique_sound noSelf hRange ht).2.1)
    · refine ⟨sixClique _, getCliqueList_six hk, ?_, ?_⟩
      · intro t ht
        rw [hk] at ht
        obtain ⟨hlen, hpl, hpn, hrg⟩ := ht
        obtain ⟨a, b, c, d, e, f, rfl⟩ := list_len_six hlen
        have p1 := List.pairwise_cons.mp hpl
        have p2 := List.pairwise_cons.mp p1.2
        have p3 := List.pairwise_cons.mp p2.2
        have p4 := List.pairwise_cons.mp p3.2
        have p5 := List.pairwise_cons.mp p4.2
        have q1 := List.pairwise_cons.mp hpn
        have q2 := List.pairwise_cons.mp q1.2
        have q3 := List.pairwise_cons.mp q2.2
        have q4 := List.pairwise_cons.mp q3.2
        have q5 := List.pairwise_cons.mp q4.2
        exact sixClique_complete (hrg a (by simp))
          (p1.1 b (by simp)) (p2.1 c (by simp)) (p3.1 d (by simp)) (p4.1 e (by simp))
          (p5.1 f (by simp))
          (q1.1 b (by simp))
          (q1.1 c (by simp)) (q2.1 c (by simp))
          (q1.1 d (by simp)) (q2.1 d (by simp)) (q3.1 d (by simp))
          (q1.1 e (by simp)) (q2.1 e (by simp)) (q3.1 e (by simp)) (q4.1 e (by simp))
          (q1.1 f (by simp)) (q2.1 f (by simp)) (q3.1 f (by simp)) (q4.1 f (by simp))
          (q5.1 f (by simp))
      · exact nodup_map_toFinset nodup_sixClique
          (fun t ht => (sixClique_sound noSelf hRange ht).2.1)
  · rfl

/-- Two pairwise-disjoint length-9 words, giving `k = ⌊26/9⌋ = 2`. -/
def twoWords9 : List (List Char) := ["abcdefghi".toList, "jklmnopqr".toList]

/-- Witness for the amended C1: at length 9 (`k = 2`) on two disjoint words, the
valid clique `[0, 1]` is indeed in the enumerator's output. -/
theorem claimC1_witness :
    [0, 1] ∈ ((getCliqueList (computeGraph (initNodes twoWords9 9) false) 9).toOption.getD
      ([] : List (List ℕ))) := by
  obtain ⟨out, heq, hcomp, _⟩ := claimC1_amended.1 twoWords9 9 (by norm_num)
  have hmem : [0, 1] ∈ out := hcomp [0, 1] (by refine ⟨by rfl, by decide, by decide, by decide⟩)
  rw [heq]
  simpa using hmem

/-- C3 counterexample: `compute_cliques` with length 26 (so `k = 1 < 2`) does not
raise; the length check accepts 26 and `_get_clique_list` falls to its default arm,
so the call completes normally with an empty clique set. -/
theorem claimC3_counterexample :
    computeCliques ["a".toList] 26 false = .ok ([], []) := by rfl

/-- C3 (amended): a requested clique size `k = ⌊26/length⌋ < 2` (every length in
14…26) is not an error: for any nonempty word list, `compute_cliques` completes
normally and returns the empty clique set; only lengths outside 1…26 raise. -/
theorem claimC3_amended :
    ∀ (words : List (List Char)) (length : ℕ) (fz : Bool),
      words ≠ [] → 14 ≤ length → length ≤ 26 →
      computeCliques words length fz = .ok ([], []) := by
  intro words length fz hne h14 h26
  have hpos : 0 < words.length := List.length_pos.mpr hne
  have hk : 26 / length = 1 := by
    have h1 : 1 ≤ 26 / length := (Nat.le_div_iff_mul_le (by omega)).mpr (by omega)
    have h2 : 26 / length < 2 := (Nat.div_lt_iff_lt_mul (by omega)).mpr (by omega)
    omega
  rw [computeCliques_eq (by omega) (by omega),
    getCliqueList_other (by omega) (by omega) (by omega) (by omega) (by omega)]
  rfl

/-- Witness for the amended C3: a concrete nonempty word list at length 20. -/
theorem claimC3_witness :
    computeCliques ["a".toList] 20 false = .ok ([], []) :=
  claimC3_amended ["a".toList] 20 false (by simp) (by norm_num) (by norm_num)

/-- C4: evaluation of the graph builder at the failing input.  In fuzzy mode on
`ab`, `ac`, `ad` (length 2), node 0 receives both 1 and 2 as fuzzy neighbors, and
both matches share the same vowel `a`: the source line
`vowels_left.replace(pop_wr(intersection), "")` discards its result, so the vowel
pool never shrinks and the same vowel is consumed twice, contradicting the claim's
(and the spec's) pairwise-distinct-vowels guarantee. -/
theorem claimC4_bug_eval :
    nbrs (computeGraph (initNodes fuzzyDemoWords 2) true) 0 = {1, 2} ∧
    charSetAt (computeGraph (initNodes fuzzyDemoWords 2) true) 0 ∩
      charSetAt (computeGraph (initNodes fuzzyDemoWords 2) true) 1 = {'a'} ∧
    charSetAt (computeGraph (initNodes fuzzyDemoWords 2) true) 0 ∩
      charSetAt (computeGraph (initNodes fuzzyDemoWords 2) true) 2 = {'a'} := by
  refine ⟨by decide, by decide, by decide⟩

/-- C5: the clique computation is identical whether the `Clique` object was
constructed with `fuzzy=True` or `fuzzy=False` — `compute_cliques` hard-codes
`fuzzy=False` when building its `Graph` — and the caller's flag can only influence
the `fuzzy` column of the CSV rows, never the clique column. -/
theorem claimC5_fuzzy_independent :
    ∀ (words : List (List Char)) (length : ℕ) (f₁ f₂ : Bool),
      computeCliques words length f₁ = computeCliques words length f₂ ∧
      ∀ (wc : List (List (List Char))),
        (writeRows wc f₁).map Prod.fst = (writeRows wc f₂).map Prod.fst := by
  intro words length f₁ f₂
  exact ⟨rfl, fun wc => by simp [writeRows]⟩

/-- C6 counterexample: in fuzzy mode with length 1, the single vowel word `a`
shares exactly one letter (the vowel `a`) with itself, so the fuzzy rule admits
the node as its own neighbor — a self-loop. -/
theorem claimC6_counterexample :
    0 ∈ nbrs (computeGraph (initNodes ["a".toList] 1) true) 0 := by decide

/-- C6 (amended): no node is its own neighbor in strict mode for every word length
≥ 1, and in fuzzy mode for every word length ≥ 2; only a fuzzy-mode graph on
length-1 vowel words can produce a self-loop. -/
theorem claimC6_amended :
    ∀ (words : List (List Char)) (length : ℕ) (fuzzy : Bool) (i : ℕ),
      (fuzzy = false → 1 ≤ length) → (fuzzy = true → 2 ≤ length) →
      i ∉ nbrs (computeGraph (initNodes words length) fuzzy) i := by
  intro words length fuzzy i h1 h2
  cases fuzzy with
  | false => exact noSelf_strict (h1 rfl) i
  | true => exact noSelf_fuzzy (h2 rfl) i

/-- Witness for the amended C6: no self-loop for `a` at length 1 in strict mode,
nor for `ab` at length 2 in fuzzy mode. -/
theorem claimC6_witness :
    0 ∉ nbrs (computeGraph (initNodes ["a".toList] 1) false) 0 ∧
    0 ∉ nbrs (computeGraph (initNodes ["ab".toList] 2) true) 0 :=
  ⟨claimC6_amended ["a".toList] 1 false 0 (fun _ => le_refl 1) (by simp),
   claimC6_amended ["ab".toList] 2 true 0 (by simp) (fun _ => le_refl 2)⟩

/-- Words with a duplicate: `cd` appears twice, so `_get_word_index` always
resolves `cd` to index 1 and node 2 never appears in any neighbor set. -/
def dupWords : List (List Char) := ["ab".toList, "cd".toList, "cd".toList]

/-- C7 counterexample: with the duplicated word list `ab`, `cd`, `cd` in strict
mode, `0 ∈ neighbors(2)` but `2 ∉ neighbors(0)` — the strict neighbor relation is
not symmetric when the same word occurs more than once. -/
theorem claimC7_counterexample :
    0 ∈ nbrs (computeGraph (initNodes dupWords 2) false) 2 ∧
    2 ∉ nbrs (computeGraph (initNodes dupWords 2) false) 0 := by decide

/-- C7 (amended): in strict mode, membership in a neighbor set always implies
letter-set disjointness, for every input word list; the relation is symmetric
whenever the surviving node words are pairwise distinct (duplicate surviving words
break symmetry, as the counterexample shows). -/
theorem claimC7_amended :
    ∀ (words : List (List Char)) (length : ℕ),
      (∀ i j, j ∈ nbrs (computeGraph (initNodes words length) false) i →
        charSetAt (computeGraph (initNodes words length) false) i ∩
          charSetAt (computeGraph (initNodes words length) false) j = ∅) ∧
      (((initNodes words length).map WordNode.word).Nodup →
        ∀ i j, j ∈ nbrs (computeGraph (initNodes words length) false) i ↔
          i ∈ nbrs (computeGraph (initNodes words length) false) j) := by
  intro words length
  constructor
  · intro i j hj
    by_cases hi : i < (initNodes words length).length
    · obtain ⟨jn, hjn, hc, hx⟩ := (mem_nbrs_strict hi).mp hj
      obtain ⟨k, hk⟩ := getWordIndex_isSome_of_mem hjn
      rw [hk] at hx
      simp only [Option.getD_some] at hx
      subst hx
      have hkspec := getWordIndex_some_spec hk
      have hjnspec := initNodes_spec hjn
      have hkmem := initNodes_spec (getD_mem hkspec.1)
      have hcsj : charSetAt (initNodes words length) k = jn.charSet := by
        rw [charSetAt, hkmem.1, hkspec.2, ← hjnspec.1]
      rw [charSetAt_computeGraph, charSetAt_computeGraph, hcsj, charSetAt]
      exact Finset.card_eq_zero.mp hc
    · rw [nbrs_computeGraph_oob hi] at hj
      simp at hj
  · intro hnd
    have key : ∀ i j, j ∈ nbrs (computeGraph (initNodes words length) false) i ↔
        (i < (initNodes words length).length ∧ j < (initNodes words length).length ∧
          (charSetAt (initNodes words length) i ∩
            charSetAt (initNodes words length) j).card = 0) := by
      intro i j
      constructor
      · intro hj
        by_cases hi : i < (initNodes words length).length
        · obtain ⟨jn, hjn, hc, hx⟩ := (mem_nbrs_strict hi).mp hj
          obtain ⟨k, hk⟩ := getWordIndex_isSome_of_mem hjn
          rw [hk] at hx
          simp only [Option.getD_some] at hx
          subst hx
          have hkspec := getWordIndex_some_spec hk
          have hjnspec := initNodes_spec hjn
          have hkmem := initNodes_spec (getD_mem hkspec.1)
          refine ⟨hi, hkspec.1, ?_⟩
          have hcsj : charSetAt (initNodes words length) k = jn.charSet := by
            rw [charSetAt, hkmem.1, hkspec.2, ← hjnspec.1]
          rw [hcsj]
          exact hc
        · rw [nbrs_computeGraph_oob hi] at hj
          simp at hj
      · rintro ⟨hi, hj, hc⟩
        refine (mem_nbrs_strict hi).mpr
          ⟨(initNodes words length).getD j defaultNode, getD_mem hj, hc, ?_⟩
        rw [getWordIndex_self hnd hj]
        rfl
    intro i j
    rw [key i j, key j i, Finset.inter_comm]
    constructor
    · rintro ⟨h1, h2, h3⟩
      exact ⟨h2, h1, h3⟩
    · rintro ⟨h1, h2, h3⟩
      exact ⟨h2, h1, h3⟩

/-- Two distinct, letter-disjoint length-2 words. -/
def distinctWords2 : List (List Char) := ["ab".toList, "cd".toList]

/-- Witness for the amended C7: on two distinct words, a concrete neighbor pair is
letter-disjoint and the relation is symmetric. -/
theorem claimC7_witness :
    (charSetAt (computeGraph (initNodes distinctWords2 2) false) 0 ∩
      charSetAt (computeGraph (initNodes distinctWords2 2) false) 1 = ∅) ∧
    (1 ∈ nbrs (computeGraph (initNodes distinctWords2 2) false) 0 ↔
      0 ∈ nbrs (computeGraph (initNodes distinctWords2 2) false) 1) :=
  ⟨(claimC7_amended distinctWords2 2).1 0 1 (by decide),
   (claimC7_amended distinctWords2 2).2 (by decide) 0 1⟩

/-- C8 counterexample: the filter is case-sensitive, not case-insensitive.  The
length-2 word `aA` consists of the same letter in two cases; the claim says it is
skipped, but `set("aA")` has two elements, so the code creates a node for it (its
case-insensitive letter set would have size 1 ≠ 2, as the second conjunct shows). -/
theorem claimC8_counterexample :
    initNodes ["aA".toList] 2 ≠ [] ∧
    (specCaseInsensitiveLetterSet ("aA".toList)).card ≠ 2 := by
  refine ⟨by decide, by decide⟩

/-- C8 (amended): the word filter creates a node for an input word if and only if
the word, after stripping, has length equal to the requested length and its
case-sensitive character set has size equal to that length; surviving words keep
their first-seen input order (the node list is exactly the order-preserving
filter-then-map of the stripped input). -/
theorem claimC8_amended :
    ∀ (words : List (List Char)) (length : ℕ),
      initNodes words length =
        ((words.map pyStrip).filter
          (fun w => decide (w.length = length) && decide (w.toFinset.card = length))).map
          (fun w => ⟨w, w.toFinset, ∅⟩) := by
  intro words length
  induction words with
  | nil => rfl
  | cons w ws ih =>
    by_cases h1 : (pyStrip w).length = length
    · by_cases h2 : (pyStrip w).toFinset.card = length
      · simp [initNodes, List.filterMap_cons, h1, h2, ← ih, initNodes]
      · simp [initNodes, List.filterMap_cons, h1, h2, ← ih, initNodes]
    · simp [initNodes, List.filterMap_cons, h1, ← ih, initNodes]

/-- C9 counterexample: an empty word list is an error, not a normal outcome —
`Graph.__init__` raises `ValueError` on it (as its own docstring says), and
`compute_cliques` propagates that instead of returning an empty clique set. -/
theorem claimC9_counterexample :
    computeCliques [] 5 false = .error graphInitMsg := by rfl

/-- C9 (amended): for a nonempty word list and a valid length, if no word survives
filtering the pipeline completes normally with an empty clique set; only the
genuinely empty input list raises. -/
theorem claimC9_amended :
    ∀ (words : List (List Char)) (length : ℕ) (fz : Bool),
      words ≠ [] → 1 ≤ length → length ≤ 26 → initNodes words length = [] →
      computeCliques words length fz = .ok ([], []) := by
  intro words length fz hne h1 h26 hinit
  have hpos : 0 < words.length := List.length_pos.mpr hne
  have hempty : ∀ (L : ℕ), getCliqueList ([] : List WordNode) L = .ok [] := by
    intro L
    rw [getCliqueList]
    split_ifs <;> rfl
  rw [computeCliques_eq (by omega) (by omega), hinit]
  rw [show computeGraph [] false = [] from rfl, hempty]
  rfl

/-- Witness for the amended C9: at length 5 the word `ab` survives nothing, and the
pipeline returns an empty clique set without raising. -/
theorem claimC9_witness :
    computeCliques ["ab".toList] 5 false = .ok ([], []) :=
  claimC9_amended ["ab".toList] 5 false (by simp) (by norm_num) (by norm_num) (by rfl)

/-- C10 counterexample: the pipeline run on the spec's own six-word example
delivers to the sink only the clique words and the fuzzy flag; the CSV fields are
exactly `clique` and `fuzzy` — no `repeats` or `missing` set is ever computed or
delivered anywhere in the code. -/
theorem claimC10_counterexample :
    computeCliques sixWords 4 false = .ok ([[0, 1, 2, 3, 4, 5]], [sixWords]) ∧
    writeRows [sixWords] false = [(sixWords, false)] ∧
    rowFields = ["clique", "fuzzy"] ∧
    "repeats" ∉ rowFields ∧ "missing" ∉ rowFields := by
  refine ⟨by rfl, by rfl, rfl, by decide, by decide⟩

/-- C10 (amended): for each discovered clique the system delivers to the result
sink exactly the clique's words (via `_get_word_repr`) paired with the fuzzy flag;
the row fields are `clique` and `fuzzy` only, and no repeats/missing letter sets
are computed or delivered. -/
theorem claimC10_amended :
    ∀ (words : List (List Char)) (length : ℕ) (fz f : Bool)
      (out : List (List ℕ) × List (List (List Char))),
      computeCliques words length fz = .ok out →
      writeRows out.2 f = out.2.map (fun c => (c, f)) ∧
      out.2 = getWordRepr (computeGraph (initNodes words length) false) out.1 ∧
      rowFields = ["clique", "fuzzy"] := by
  intro words length fz f out h
  exact ⟨rfl, (computeCliques_ok h).2.2.2.2, rfl⟩

/-- Witness for the amended C10 at the concrete six-word run. -/
theorem claimC10_witness :
    writeRows [sixWords] false = [sixWords].map (fun c => (c, false)) ∧
    [sixWords] = getWordRepr (computeGraph (initNodes sixWords 4) false) [[0, 1, 2, 3, 4, 5]] ∧
    rowFields = ["clique", "fuzzy"] :=
  claimC10_amended sixWords 4 false false ([[0, 1, 2, 3, 4, 5]], [sixWords]) (by rfl)

end Cliques
